import Mathlib

/-!
# Verification of the PFA compact-code codec subsystem

Shallow embedding of the codec sources:
* `src/utils/codec/base64url.js` — base64url transcoding (via the JS
  `btoa`/`atob` builtins, modelled by their standard semantics);
* `src/utils/codec/crc8.js`     — CRC-8 checksum (polynomial 0x07);
* `src/utils/codec/bitPacker.js`— MSB-first bit writer/reader and the
  exercise enumeration tables;
* `src/utils/codec/scode.js`    — S-code (self-assessment) codec;
* `src/utils/codec/dcode.js`    — D-code (demographics) codec.

Modelling conventions:
* JS strings are modelled as `List Char`, byte arrays (`Uint8Array`) as
  `List ℕ` with every element `< 256`;
* JS `Date` values are modelled by their millisecond timestamp (`ℤ`,
  milliseconds since the Unix epoch), JS numbers carrying measurements by `ℚ`;
* thrown `Error`s are modelled by `Except CodecError`, one constructor per
  distinct throw site / message;
* machine integers are `ℕ`/`ℤ` (all values handled stay far below 2^31, the
  range where JS bitwise operators coincide with the integer operations used
  here).
-/

namespace PFA

/-! ## base64url.js

`encodeBase64url` builds a binary string and calls `btoa`, then rewrites
`+`→`-`, `/`→`_` and strips `=`.  `decodeBase64url` rewrites `-`→`+`,
`_`→`/`, re-pads with `=` to a multiple of 4, and calls `atob`.  The
builtins `btoa`/`atob` are modelled by standard (WHATWG forgiving) base64:
`atob` removes ASCII whitespace, then fails on characters outside the
standard alphabet and on a length ≡ 1 (mod 4) after padding removal. -/

/-- The standard base64 alphabet, index 0–63. -/
def b64Alphabet : List Char :=
  "ABCDEFGHIJKLMNOPQRSTUVWXYZabcdefghijklmnopqrstuvwxyz0123456789+/".data

/-- Character for sextet `i` (used only with `i < 64`). -/
def b64Char (i : ℕ) : Char := b64Alphabet.getD i '='

/-- Model of the JS `btoa` builtin on a byte string: standard base64,
    3 bytes → 4 characters, `=`-padded final chunk. -/
def btoaChars : List ℕ → List Char
  | [] => []
  | [a] => [b64Char (a / 4), b64Char (a % 4 * 16), '=', '=']
  | [a, b] => [b64Char (a / 4), b64Char (a % 4 * 16 + b / 16), b64Char (b % 16 * 4), '=']
  | a :: b :: c :: rest =>
      b64Char (a / 4) :: b64Char (a % 4 * 16 + b / 16) ::
      b64Char (b % 16 * 4 + c / 64) :: b64Char (c % 64) :: btoaChars rest

/-- `encodeBase64url` (base64url.js lines 11–25): `btoa`, then the three
    regex replacements `+`→`-`, `/`→`_`, delete `=`. -/
def encodeBase64url (data : List ℕ) : List Char :=
  (((btoaChars data).map (fun c => if c = '+' then '-' else c)).map
      (fun c => if c = '/' then '_' else c)).filter (fun c => c ≠ '=')

/-- Index of a character in the standard base64 alphabet (`none` for `=`
    and every other non-alphabet character). -/
def b64CharIndex (c : Char) : Option ℕ :=
  b64Alphabet.findIdx? (· == c)

/-- Reassemble bytes from a sextet stream: 4 sextets → 3 bytes, a final
    chunk of 2 or 3 sextets → 1 or 2 bytes (spare low bits discarded, as in
    forgiving base64); a dangling single sextet is a failure. -/
def sextetsToBytes : List ℕ → Option (List ℕ)
  | [] => some []
  | [_] => none
  | [a, b] => some [a * 4 + b / 16]
  | [a, b, c] => some [a * 4 + b / 16, b % 16 * 16 + c / 4]
  | a :: b :: c :: d :: rest => do
      let tail ← sextetsToBytes rest
      pure ((a * 4 + b / 16) :: (b % 16 * 16 + c / 4) :: (c % 4 * 64 + d) :: tail)

/-- Padding removal step of forgiving base64: when the length is a multiple
    of 4, drop one or two trailing `=`. -/
def stripBase64Pad (cs : List Char) : List Char :=
  if cs.length % 4 = 0 then
    if cs.getLast? = some '=' then
      let cs' := cs.dropLast
      if cs'.getLast? = some '=' then cs'.dropLast else cs'
    else cs
  else cs

/-- ASCII whitespace in the sense of the WHATWG infra standard: TAB, LF,
    FF, CR or SPACE. -/
def isAsciiWs (c : Char) : Bool :=
  c == '\t' || c == '\n' || c == '\x0c' || c == '\r' || c == ' '

/-- Model of the JS `atob` builtin (WHATWG forgiving-base64 decode):
    remove all ASCII whitespace, strip trailing padding, fail on
    length ≡ 1 (mod 4) or a non-alphabet character, then reassemble
    bytes. -/
def atob (cs : List Char) : Option (List ℕ) :=
  let cs := cs.filter (fun c => !isAsciiWs c)
  let cs := stripBase64Pad cs
  if cs.length % 4 = 1 then none
  else do
    let sextets ← cs.mapM b64CharIndex
    sextetsToBytes sextets

/-- `decodeBase64url` (base64url.js lines 32–50): rewrite `-`→`+`, `_`→`/`,
    pad with `=` to a multiple of 4 (the `while` loop), `atob`. -/
def decodeBase64url (str : List Char) : Option (List ℕ) :=
  let base64 := (str.map (fun c => if c = '-' then '+' else c)).map
      (fun c => if c = '_' then '/' else c)
  let padded := base64 ++ List.replicate ((4 - base64.length % 4) % 4) '='
  atob padded

/-! ## crc8.js -/

/-- The CRC-8 polynomial x^8 + x^2 + x + 1. -/
def CRC8_POLY : ℕ := 0x07

/-- One iteration of the inner loop of `crc8`: shift left, xor the
    polynomial in when bit 7 was set.  As in the source, no 8-bit mask is
    applied here; bits above bit 7 accumulate and are masked only after the
    eight iterations. -/
def crcShift (crc : ℕ) : ℕ :=
  if crc &&& 0x80 ≠ 0 then (crc <<< 1) ^^^ CRC8_POLY else crc <<< 1

/-- The eight inner-loop iterations followed by the `crc &= 0xff` mask. -/
def crcL (x : ℕ) : ℕ := (crcShift^[8] x) &&& 0xff

/-- One outer-loop iteration of `crc8`: `crc ^= data[i]`, then the eight
    shift steps and the mask. -/
def crcByte (crc b : ℕ) : ℕ := crcL (crc ^^^ b)

/-- `crc8` (crc8.js lines 14–32): fold over the bytes starting from 0. -/
def crc8 (data : List ℕ) : ℕ := data.foldl crcByte 0

/-- `verifyCrc8` (crc8.js lines 39–47): false on fewer than 2 bytes, else
    compare the last byte with the CRC of the rest. -/
def verifyCrc8 (data : List ℕ) : Bool :=
  if data.length < 2 then false
  else data.getD (data.length - 1) 0 == crc8 data.dropLast

/-! ## bitPacker.js -/

/-- The bits appended by one `BitPacker.pack(value, bitCount)` call:
    `(value >> i) & 1` for `i = bitCount-1 … 0` (MSB first). -/
def packBits (value : ℕ) : ℕ → List ℕ
  | 0 => []
  | n + 1 => ((value >>> n) &&& 1) :: packBits value n

/-- `BitPacker` (bitPacker.js lines 6–42): an accumulating bit list. -/
structure BitPacker where
  bits : List ℕ

def BitPacker.pack (p : BitPacker) (value bitCount : ℕ) : BitPacker :=
  { bits := p.bits ++ packBits value bitCount }

/-- Collapse eight bits into one byte, `byte = (byte << 1) | bit`. -/
def byteOfBits (l : List ℕ) : ℕ :=
  l.foldl (fun byte bit => (byte <<< 1) ||| bit) 0

/-- Group a (byte-aligned) bit list into bytes, eight at a time. -/
def bitsToBytes : List ℕ → List ℕ
  | b0 :: b1 :: b2 :: b3 :: b4 :: b5 :: b6 :: b7 :: rest =>
      byteOfBits [b0, b1, b2, b3, b4, b5, b6, b7] :: bitsToBytes rest
  | _ => []

/-- `BitPacker.getBytes`: zero-pad to a byte boundary, then pack into
    bytes MSB-first. -/
def BitPacker.getBytes (p : BitPacker) : List ℕ :=
  bitsToBytes (p.bits ++ List.replicate ((8 - p.bits.length % 8) % 8) 0)

/-- `BitUnpacker` (bitPacker.js lines 44–74): the expanded bit list and a
    read cursor. -/
structure BitUnpacker where
  bits : List ℕ
  position : ℕ

/-- The constructor's double loop: each byte expands to its eight bits,
    `(byte >> j) & 1` for `j = 7 … 0` — the same MSB-first expansion as
    `packBits _ 8`. -/
def BitUnpacker.ofBytes (bytes : List ℕ) : BitUnpacker :=
  { bits := bytes.flatMap (fun b => packBits b 8), position := 0 }

/-- The loop body of `unpack`: `value = (value << 1) | (bits[pos++] || 0)`;
    an index past the end reads as 0 (`undefined || 0`). -/
def readBitsFrom (bits : List ℕ) : ℕ → ℕ → ℕ → ℕ
  | _, 0, value => value
  | pos, n + 1, value => readBitsFrom bits (pos + 1) n ((value <<< 1) ||| bits.getD pos 0)

/-- `BitUnpacker.unpack(bitCount)`: read `bitCount` bits MSB-first and
    advance the cursor. -/
def BitUnpacker.unpack (u : BitUnpacker) (bitCount : ℕ) : ℕ × BitUnpacker :=
  (readBitsFrom u.bits u.position bitCount 0,
   { u with position := u.position + bitCount })

/-! ### Exercise tables (bitPacker.js lines 79–105)

The JS objects are modelled as `String → Option ℕ` functions and their
`Object.fromEntries`-built reverses as `ℕ → Option String`.  The source
reads them as `TABLE[x] || default`; since the table values are exactly
`0, 1, 2` and the JS `||` treats `0` as falsy, `(TABLE x).getD 0` agrees
with the source also at value `0` (`0 || 0 = 0`). -/

def CARDIO_EXERCISES : String → Option ℕ
  | "2mile_run" => some 0
  | "hamr" => some 1
  | "2km_walk" => some 2
  | _ => none

def STRENGTH_EXERCISES : String → Option ℕ
  | "pushups" => some 0
  | "hrpu" => some 1
  | _ => none

def CORE_EXERCISES : String → Option ℕ
  | "situps" => some 0
  | "clrc" => some 1
  | "plank" => some 2
  | _ => none

def CARDIO_EXERCISES_REV : ℕ → Option String
  | 0 => some "2mile_run"
  | 1 => some "hamr"
  | 2 => some "2km_walk"
  | _ => none

def STRENGTH_EXERCISES_REV : ℕ → Option String
  | 0 => some "pushups"
  | 1 => some "hrpu"
  | _ => none

def CORE_EXERCISES_REV : ℕ → Option String
  | 0 => some "situps"
  | 1 => some "clrc"
  | 2 => some "plank"
  | _ => none

/-! ## Shared codec modelling -/

/-- Modelled from the spec: the `GENDER` enum defined by the scoring
    subsystem (`../scoring/constants.js`, not part of the codec sources):
    a two-valued enumeration `{MALE, FEMALE}`. -/
inductive Gender
  | MALE
  | FEMALE
deriving DecidableEq, Repr

/-- The distinct throw sites of the codec, one constructor per message:
    * `missingDate` — "Assessment date is required" (scode.js 60)
    * `missingDemographics` — "Missing required demographics…" (dcode.js 46)
    * `dobOutOfRange` — "DOB out of valid range" (dcode.js 56)
    * `badPrefix` — "missing or incorrect prefix" (scode.js 142, dcode.js 90)
    * `base64Failed` — "base64url decode failed" (scode.js 153, dcode.js 101)
    * `checksumMismatch` — "checksum mismatch" (scode.js 158, dcode.js 106)
    * `wrongLength` — "incorrect data length" (dcode.js 113)
    * `newerVersion` — "…from newer version. Please update the app."
      (scode.js 172, dcode.js 123). -/
inductive CodecError
  | missingDate
  | missingDemographics
  | dobOutOfRange
  | badPrefix
  | base64Failed
  | checksumMismatch
  | wrongLength
  | newerVersion
deriving DecidableEq, Repr

deriving instance DecidableEq for Except

/-- JS `Math.round`: round half up, `⌊q + 1/2⌋`. -/
def jsRound (q : ℚ) : ℤ := ⌊q + 1 / 2⌋

/-! ## scode.js -/

namespace SCode

def SCHEMA_VERSION : ℕ := 2

def CHART_VERSION : ℕ := 0

/-- `EPOCH_DATE = new Date('1950-01-01')` as a millisecond timestamp:
    1950-01-01T00:00Z is 7305 days = 631152000000 ms before the Unix
    epoch. -/
def EPOCH_MS : ℤ := -631152000000

/-- `PREFIX = 'S2-'` (scode.js line 27). -/
def PREFIX_TAG : List Char := ['S', '2', '-']

/-- `dateToDays` (scode.js lines 32–36): `Math.floor` of the millisecond
    difference over a day, i.e. the floor division. -/
def dateToDays (date : ℤ) : ℤ := Int.fdiv (date - EPOCH_MS) (1000 * 60 * 60 * 24)

/-- `daysToDate` (scode.js lines 41–43). -/
def daysToDate (days : ℤ) : ℤ := EPOCH_MS + days * (24 * 60 * 60 * 1000)

/-- A cardio/strength/core entry of the assessment passed to
    `encodeSCode`: exercise name, numeric value and exemption flag.  When
    `exempt` is set the `value` field is never read (it is `null` in JS
    callers). -/
structure ComponentIn where
  exercise : String
  value : ℚ
  exempt : Bool

/-- The `bodyComp` entry passed to `encodeSCode`. -/
structure BodyCompIn where
  heightInches : ℚ
  waistInches : ℚ
  exempt : Bool

/-- The assessment object passed to `encodeSCode`; destructuring defaults
    every component to `null` and a missing `date` is rejected. -/
structure AssessmentIn where
  date : Option ℤ
  cardio : Option ComponentIn := none
  strength : Option ComponentIn := none
  core : Option ComponentIn := none
  bodyComp : Option BodyCompIn := none

/-- A decoded cardio/strength/core component (`value` is `null` when
    exempt). -/
structure ComponentOut where
  exercise : String
  value : Option ℕ
  exempt : Bool
deriving DecidableEq, Repr

/-- A decoded `bodyComp` component (measurements are `null` when exempt). -/
structure BodyCompOut where
  heightInches : Option ℚ
  waistInches : Option ℚ
  exempt : Bool
deriving DecidableEq, Repr

/-- The record returned by `decodeSCode` (scode.js lines 237–246). -/
structure AssessmentOut where
  date : ℤ
  isDiagnostic : Bool
  schemaVersion : ℕ
  chartVersion : ℕ
  cardio : Option ComponentOut
  strength : Option ComponentOut
  core : Option ComponentOut
  bodyComp : Option BodyCompOut
deriving DecidableEq, Repr

/-- The cardio packing block of `encodeSCode` (scode.js lines 81–88). -/
def packCardio (packer : BitPacker) (cardio : Option ComponentIn) : BitPacker :=
  match cardio with
  | none => packer
  | some cardio =>
    let exCode := (CARDIO_EXERCISES cardio.exercise).getD 0
    let packer := packer.pack exCode 3
    let packer := packer.pack (if cardio.exempt then 1 else 0) 1
    if cardio.exempt then packer else packer.pack (jsRound cardio.value).toNat 12

/-- The strength packing block of `encodeSCode` (scode.js lines 91–98). -/
def packStrength (packer : BitPacker) (strength : Option ComponentIn) : BitPacker :=
  match strength with
  | none => packer
  | some strength =>
    let exCode := (STRENGTH_EXERCISES strength.exercise).getD 0
    let packer := packer.pack exCode 2
    let packer := packer.pack (if strength.exempt then 1 else 0) 1
    if strength.exempt then packer else packer.pack (jsRound strength.value).toNat 7

/-- The core packing block of `encodeSCode` (scode.js lines 101–108). -/
def packCore (packer : BitPacker) (core : Option ComponentIn) : BitPacker :=
  match core with
  | none => packer
  | some core =>
    let exCode := (CORE_EXERCISES core.exercise).getD 0
    let packer := packer.pack exCode 2
    let packer := packer.pack (if core.exempt then 1 else 0) 1
    if core.exempt then packer else packer.pack (jsRound core.value).toNat 12

/-- The body-composition packing block of `encodeSCode` (scode.js lines
    111–119): measurements stored in tenths of an inch, rounded. -/
def packBodyComp (packer : BitPacker) (bodyComp : Option BodyCompIn) : BitPacker :=
  match bodyComp with
  | none => packer
  | some bodyComp =>
    let packer := packer.pack (if bodyComp.exempt then 1 else 0) 1
    if bodyComp.exempt then packer
    else
      let height := (jsRound (bodyComp.heightInches * 10)).toNat
      let waist := (jsRound (bodyComp.waistInches * 10)).toNat
      (packer.pack height 11).pack waist 10

/-- `encodeSCode` (scode.js lines 50–132).  `isDiagnosticPeriod` is the
    externally supplied date classifier imported from
    `../scoring/constants.js`; it is taken as a parameter.  The four
    component blocks are the named functions above. -/
def encodeSCode (isDiagnosticPeriod : ℤ → Bool) (assessment : AssessmentIn) :
    Except CodecError (List Char) :=
  match assessment.date with
  | none => .error .missingDate
  | some date =>
    let packer : BitPacker := ⟨[]⟩
    let dateDays := dateToDays date
    let diagnostic : ℕ := if isDiagnosticPeriod date then 1 else 0
    let packer := packer.pack SCHEMA_VERSION 4
    let packer := packer.pack CHART_VERSION 4
    let packer := packer.pack dateDays.toNat 16
    let packer := packer.pack diagnostic 1
    let packer := packer.pack (if assessment.cardio.isSome then 1 else 0) 1
    let packer := packer.pack (if assessment.strength.isSome then 1 else 0) 1
    let packer := packer.pack (if assessment.core.isSome then 1 else 0) 1
    let packer := packer.pack (if assessment.bodyComp.isSome then 1 else 0) 1
    let packer := packCardio packer assessment.cardio
    let packer := packStrength packer assessment.strength
    let packer := packCore packer assessment.core
    let packer := packBodyComp packer assessment.bodyComp
    let bytes := packer.getBytes
    let crcValue := crc8 bytes
    let dataWithCrc := bytes ++ [crcValue]
    .ok (PREFIX_TAG ++ encodeBase64url dataWithCrc)

/-- The cardio unpacking block of `decodeSCode` (scode.js lines 181–191):
    exercise code (3 bits), exempt bit, and — unless exempt — a 12-bit
    value; an unknown exercise code falls back to `'2mile_run'`. -/
def readCardio (u : BitUnpacker) (hasCardio : Bool) :
    Option ComponentOut × BitUnpacker :=
  if hasCardio then
    let r1 := u.unpack 3
    let r2 := r1.2.unpack 1
    let exempt := r2.1 = 1
    let rv :=
      if exempt then ((none : Option ℕ), r2.2)
      else
        let r3 := r2.2.unpack 12
        (some r3.1, r3.2)
    (some { exercise := (CARDIO_EXERCISES_REV r1.1).getD "2mile_run",
            value := rv.1, exempt := exempt }, rv.2)
  else (none, u)

/-- The strength unpacking block of `decodeSCode` (scode.js lines
    193–203): exercise code (2 bits), exempt bit, 7-bit value. -/
def readStrength (u : BitUnpacker) (hasStrength : Bool) :
    Option ComponentOut × BitUnpacker :=
  if hasStrength then
    let r1 := u.unpack 2
    let r2 := r1.2.unpack 1
    let exempt := r2.1 = 1
    let rv :=
      if exempt then ((none : Option ℕ), r2.2)
      else
        let r3 := r2.2.unpack 7
        (some r3.1, r3.2)
    (some { exercise := (STRENGTH_EXERCISES_REV r1.1).getD "pushups",
            value := rv.1, exempt := exempt }, rv.2)
  else (none, u)

/-- The core unpacking block of `decodeSCode` (scode.js lines 205–215):
    exercise code (2 bits), exempt bit, 12-bit value. -/
def readCore (u : BitUnpacker) (hasCore : Bool) :
    Option ComponentOut × BitUnpacker :=
  if hasCore then
    let r1 := u.unpack 2
    let r2 := r1.2.unpack 1
    let exempt := r2.1 = 1
    let rv :=
      if exempt then ((none : Option ℕ), r2.2)
      else
        let r3 := r2.2.unpack 12
        (some r3.1, r3.2)
    (some { exercise := (CORE_EXERCISES_REV r1.1).getD "situps",
            value := rv.1, exempt := exempt }, rv.2)
  else (none, u)

/-- The body-composition unpacking block of `decodeSCode` (scode.js lines
    217–235): exempt bit, then height (11 bits) and waist (10 bits),
    converted back from tenths. -/
def readBodyComp (u : BitUnpacker) (hasBodyComp : Bool) :
    Option BodyCompOut × BitUnpacker :=
  if hasBodyComp then
    let r1 := u.unpack 1
    let exempt := r1.1 = 1
    if ¬ exempt then
      let r2 := r1.2.unpack 11
      let r3 := r2.2.unpack 10
      (some { heightInches := some ((r2.1 : ℚ) / 10),
              waistInches := some ((r3.1 : ℚ) / 10),
              exempt := false }, r3.2)
    else
      (some { heightInches := none, waistInches := none, exempt := true }, r1.2)
  else (none, u)

/-- The presence flags and component reads of `decodeSCode` (scode.js
    lines 176–246), producing the final record.  No failure is possible
    here: every read is total. -/
def readAssessmentBody (u : BitUnpacker)
    (schemaVersion chartVersion dateDays diagnostic : ℕ) : AssessmentOut :=
  let p1 := u.unpack 1
  let hasCardio := p1.1 = 1
  let p2 := p1.2.unpack 1
  let hasStrength := p2.1 = 1
  let p3 := p2.2.unpack 1
  let hasCore := p3.1 = 1
  let p4 := p3.2.unpack 1
  let hasBodyComp := p4.1 = 1
  let rc := readCardio p4.2 hasCardio
  let rs := readStrength rc.2 hasStrength
  let rk := readCore rs.2 hasCore
  let rb := readBodyComp rk.2 hasBodyComp
  { date := daysToDate dateDays,
    isDiagnostic := diagnostic = 1,
    schemaVersion := schemaVersion,
    chartVersion := chartVersion,
    cardio := rc.1, strength := rs.1, core := rk.1, bodyComp := rb.1 }

/-- The header unpacking of `decodeSCode` (scode.js lines 162–179): the
    four header fields, the version guard, then the component reads. -/
def unpackAssessment (dataBytes : List ℕ) : Except CodecError AssessmentOut :=
  let u := BitUnpacker.ofBytes dataBytes
  let r1 := u.unpack 4
  let r2 := r1.2.unpack 4
  let r3 := r2.2.unpack 16
  let r4 := r3.2.unpack 1
  if r1.1 > SCHEMA_VERSION then .error .newerVersion
  else .ok (readAssessmentBody r4.2 r1.1 r2.1 r3.1 r4.1)

/-- `decodeSCode` (scode.js lines 139–247): prefix check, base64url
    decode, CRC verification, then the bit-level unpacking above. -/
def decodeSCode (scode : List Char) : Except CodecError AssessmentOut :=
  if ¬ PREFIX_TAG.isPrefixOf scode then .error .badPrefix
  else
    let payload := scode.drop PREFIX_TAG.length
    match decodeBase64url payload with
    | none => .error .base64Failed
    | some bytes =>
      if ¬ verifyCrc8 bytes then .error .checksumMismatch
      else unpackAssessment bytes.dropLast

/-- `isValidSCode` (scode.js lines 254–261). -/
def isValidSCode (scode : List Char) : Bool :=
  (decodeSCode scode).toOption.isSome

end SCode

/-! ## dcode.js -/

namespace DCode

def SCHEMA_VERSION : ℕ := 1

/-- `EPOCH_DATE = new Date('1950-01-01')`, same epoch as the S-code. -/
def EPOCH_MS : ℤ := -631152000000

/-- `PREFIX = 'D1-'` (dcode.js line 14). -/
def PREFIX_TAG : List Char := ['D', '1', '-']

/-- `dateToDaysSinceEpoch` (dcode.js lines 21–25). -/
def dateToDaysSinceEpoch (date : ℤ) : ℤ :=
  Int.fdiv (date - EPOCH_MS) (1000 * 60 * 60 * 24)

/-- `daysToDate` (dcode.js lines 32–35). -/
def daysToDate (days : ℤ) : ℤ := EPOCH_MS + days * (24 * 60 * 60 * 1000)

/-- The demographics object passed to `encodeDCode`; either field may be
    absent, which is rejected. -/
structure DemographicsIn where
  dob : Option ℤ
  gender : Option Gender

/-- The record returned by `decodeDCode` (dcode.js lines 130–134). -/
structure DemographicsOut where
  dob : ℤ
  gender : Gender
  schemaVersion : ℕ
deriving DecidableEq, Repr

/-- `encodeDCode` (dcode.js lines 42–80). -/
def encodeDCode (demographics : DemographicsIn) : Except CodecError (List Char) :=
  match demographics.dob, demographics.gender with
  | some dob, some gender =>
    let genderBit : ℕ := if gender = Gender.FEMALE then 1 else 0
    let dobDays := dateToDaysSinceEpoch dob
    if dobDays < 0 ∨ dobDays > 0xffff then .error .dobOutOfRange
    else
      let d := dobDays.toNat
      let byte0 := (SCHEMA_VERSION <<< 4) ||| (genderBit <<< 3) ||| ((d >>> 13) &&& 0x07)
      let byte1 := (d >>> 5) &&& 0xff
      let byte2 := (d <<< 3) &&& 0xff
      let bytes := [byte0, byte1, byte2]
      let crcValue := crc8 bytes
      let dataWithCrc := bytes ++ [crcValue]
      .ok (PREFIX_TAG ++ encodeBase64url dataWithCrc)
  | _, _ => .error .missingDemographics

/-- `decodeDCode` (dcode.js lines 87–135). -/
def decodeDCode (dcode : List Char) : Except CodecError DemographicsOut :=
  if ¬ PREFIX_TAG.isPrefixOf dcode then .error .badPrefix
  else
    let payload := dcode.drop PREFIX_TAG.length
    match decodeBase64url payload with
    | none => .error .base64Failed
    | some bytes =>
      if ¬ verifyCrc8 bytes then .error .checksumMismatch
      else
        let data := bytes.dropLast
        if data.length ≠ 3 then .error .wrongLength
        else
          let schemaVersion := (data.getD 0 0 >>> 4) &&& 0x0f
          let genderBit := (data.getD 0 0 >>> 3) &&& 0x01
          let dobDays := ((data.getD 0 0 &&& 0x07) <<< 13) ||| (data.getD 1 0 <<< 5) |||
            (data.getD 2 0 >>> 3)
          if schemaVersion > SCHEMA_VERSION then .error .newerVersion
          else
            .ok { dob := daysToDate dobDays,
                  gender := if genderBit = 1 then Gender.FEMALE else Gender.MALE,
                  schemaVersion }

/-- `isValidDCode` (dcode.js lines 142–149). -/
def isValidDCode (dcode : List Char) : Bool :=
  (decodeDCode dcode).toOption.isSome

end DCode

/-! ## Generic bit-arithmetic lemmas -/

/-- A shifted value or-ed with a small value is their sum (the bit ranges
    are disjoint). -/
theorem shiftLeft_lor_eq {a b k : ℕ} (hb : b < 2 ^ k) :
    (a <<< k) ||| b = 2 ^ k * a + b := by
  apply Nat.eq_of_testBit_eq
  intro i
  rw [Nat.testBit_lor, Nat.testBit_mul_pow_two_add a hb, Nat.testBit_shiftLeft]
  by_cases h : i < k
  · rw [if_pos h]
    have hk : ¬ (i ≥ k) := by omega
    simp [hk]
  · rw [if_neg h]
    have hbi : b.testBit i = false :=
      Nat.testBit_lt_two_pow (lt_of_lt_of_le hb (Nat.pow_le_pow_right (by omega) (by omega)))
    have hk : i ≥ k := by omega
    simp [hk, hbi]

/-- Disjoint-or as addition, stated through a divisibility condition. -/
theorem lor_eq_add_of_mod {a b k : ℕ} (ha : a % 2 ^ k = 0) (hb : b < 2 ^ k) :
    a ||| b = a + b := by
  have hdvd : 2 ^ k ∣ a := Nat.dvd_of_mod_eq_zero ha
  have h1 : a = (a / 2 ^ k) <<< k := by
    rw [Nat.shiftLeft_eq, Nat.mul_comm]
    exact (Nat.mul_div_cancel' hdvd).symm
  rw [h1, shiftLeft_lor_eq hb, ← h1]
  have : 2 ^ k * (a / 2 ^ k) = a := Nat.mul_div_cancel' hdvd
  omega

/-- The accumulator step of the bit reader/writer: shift in one bit. -/
theorem shiftLeft_one_lor {a b : ℕ} (hb : b < 2) : (a <<< 1) ||| b = 2 * a + b := by
  have h := shiftLeft_lor_eq (a := a) (k := 1) (by simpa using hb)
  simpa using h

/-! ## Bit packer/unpacker lemmas -/

theorem packBits_length (v : ℕ) : ∀ w, (packBits v w).length = w
  | 0 => rfl
  | n + 1 => by simp [packBits, packBits_length v n]

theorem packBits_bits_lt (v : ℕ) : ∀ w, ∀ b ∈ packBits v w, b < 2
  | 0 => by simp [packBits]
  | n + 1 => by
    simp only [packBits, List.mem_cons]
    rintro b (rfl | hb)
    · rw [Nat.and_one_is_mod]; omega
    · exact packBits_bits_lt v n b hb

/-- Splitting a field: the high `a` bits then the low `b` bits. -/
theorem packBits_add (v a b : ℕ) :
    packBits v (a + b) = packBits (v >>> b) a ++ packBits v b := by
  induction a with
  | zero => simp [packBits]
  | succ n ih =>
    have h : n + 1 + b = (n + b) + 1 := by omega
    rw [h]
    show ((v >>> (n + b)) &&& 1) :: packBits v (n + b) = _
    rw [ih]
    have h2 : v >>> (n + b) = (v >>> b) >>> n := by
      rw [Nat.add_comm n b, Nat.shiftRight_add]
    rw [h2]
    rfl

/-- Reading `w` bits that were packed from `v` yields `v % 2^w`, with the
    accumulator shifted past them. -/
theorem readBitsFrom_spec :
    ∀ (w : ℕ) (bits : List ℕ) (pos acc v : ℕ) (rest : List ℕ),
      bits.drop pos = packBits v w ++ rest →
      readBitsFrom bits pos w acc = acc * 2 ^ w + v % 2 ^ w := by
  intro w
  induction w with
  | zero =>
    intro bits pos acc v rest _
    simp [readBitsFrom, Nat.mod_one]
  | succ n ih =>
    intro bits pos acc v rest h
    have hbit : bits.getD pos 0 = (v >>> n) &&& 1 := by
      have h0 : bits[pos]? = some ((v >>> n) &&& 1) := by
        rw [← List.head?_drop, h]; rfl
      simp [List.getD_eq_getElem?_getD, h0]
    have hdrop : bits.drop (pos + 1) = packBits v n ++ rest := by
      have h1 : bits.drop (pos + 1) = (bits.drop pos).drop 1 := by
        rw [List.drop_drop]
      rw [h1, h]
      rfl
    show readBitsFrom bits (pos + 1) n ((acc <<< 1) ||| bits.getD pos 0) = _
    rw [hbit, ih bits (pos + 1) _ v rest hdrop]
    have hb : (v >>> n) &&& 1 < 2 := by rw [Nat.and_one_is_mod]; omega
    rw [shiftLeft_one_lor hb, Nat.and_one_is_mod, Nat.shiftRight_eq_div_pow]
    have hmod : v % 2 ^ (n + 1) = v % 2 ^ n + 2 ^ n * (v / 2 ^ n % 2) := by
      rw [pow_succ]
      exact Nat.mod_mul
    rw [hmod, pow_succ]
    ring

/-- The basic stepping lemma for the decoder: if the remaining bit stream
    starts with a `w`-bit field packed from `v < 2^w`, `unpack w` returns
    `v` and moves past the field. -/
theorem unpack_step {bits rest : List ℕ} {pos w v : ℕ}
    (h : bits.drop pos = packBits v w ++ rest) (hv : v < 2 ^ w) :
    (BitUnpacker.mk bits pos).unpack w = (v, BitUnpacker.mk bits (pos + w)) ∧
      bits.drop (pos + w) = rest := by
  refine ⟨?_, ?_⟩
  · have hr := readBitsFrom_spec w bits pos 0 v rest h
    rw [Nat.mod_eq_of_lt hv] at hr
    simp [BitUnpacker.unpack, hr]
  · rw [← List.drop_drop, h, List.drop_left' (packBits_length v w)]

/-! ## Byte/bit conversion lemmas -/

theorem byteOfBits_eq {b0 b1 b2 b3 b4 b5 b6 b7 : ℕ}
    (h0 : b0 < 2) (h1 : b1 < 2) (h2 : b2 < 2) (h3 : b3 < 2)
    (h4 : b4 < 2) (h5 : b5 < 2) (h6 : b6 < 2) (h7 : b7 < 2) :
    byteOfBits [b0, b1, b2, b3, b4, b5, b6, b7] =
      128 * b0 + 64 * b1 + 32 * b2 + 16 * b3 + 8 * b4 + 4 * b5 + 2 * b6 + b7 := by
  show (((((((((0 : ℕ) <<< 1 ||| b0) <<< 1 ||| b1) <<< 1 ||| b2) <<< 1 ||| b3)
      <<< 1 ||| b4) <<< 1 ||| b5) <<< 1 ||| b6) <<< 1 ||| b7) = _
  rw [shiftLeft_one_lor h7, shiftLeft_one_lor h6, shiftLeft_one_lor h5,
    shiftLeft_one_lor h4, shiftLeft_one_lor h3, shiftLeft_one_lor h2,
    shiftLeft_one_lor h1, shiftLeft_one_lor h0]
  ring

/-- The unpacker's bit expansion inverts the packer's byte assembly on one
    chunk of eight bits. -/
theorem packBits_byteOfBits {b0 b1 b2 b3 b4 b5 b6 b7 : ℕ}
    (h0 : b0 < 2) (h1 : b1 < 2) (h2 : b2 < 2) (h3 : b3 < 2)
    (h4 : b4 < 2) (h5 : b5 < 2) (h6 : b6 < 2) (h7 : b7 < 2) :
    packBits (byteOfBits [b0, b1, b2, b3, b4, b5, b6, b7]) 8 =
      [b0, b1, b2, b3, b4, b5, b6, b7] := by
  rw [byteOfBits_eq h0 h1 h2 h3 h4 h5 h6 h7]
  simp only [packBits, Nat.shiftRight_eq_div_pow, Nat.and_one_is_mod]
  norm_num
  refine ⟨?_, ?_, ?_, ?_, ?_, ?_, ?_, ?_⟩ <;> omega

theorem byteOfBits_lt {b0 b1 b2 b3 b4 b5 b6 b7 : ℕ}
    (h0 : b0 < 2) (h1 : b1 < 2) (h2 : b2 < 2) (h3 : b3 < 2)
    (h4 : b4 < 2) (h5 : b5 < 2) (h6 : b6 < 2) (h7 : b7 < 2) :
    byteOfBits [b0, b1, b2, b3, b4, b5, b6, b7] < 256 := by
  rw [byteOfBits_eq h0 h1 h2 h3 h4 h5 h6 h7]
  omega

/-- Expanding the packed bytes back to bits recovers a byte-aligned bit
    list. -/
theorem flatMap_bitsToBytes :
    ∀ l : List ℕ, (∀ b ∈ l, b < 2) → l.length % 8 = 0 →
      (bitsToBytes l).flatMap (fun b => packBits b 8) = l
  | [], _, _ => rfl
  | b0 :: b1 :: b2 :: b3 :: b4 :: b5 :: b6 :: b7 :: rest, hl, h8 => by
    have hr : ∀ b ∈ rest, b < 2 := fun b hb => hl b (by simp [hb])
    have h8r : rest.length % 8 = 0 := by
      simp only [List.length_cons] at h8
      omega
    have e : bitsToBytes (b0 :: b1 :: b2 :: b3 :: b4 :: b5 :: b6 :: b7 :: rest) =
        byteOfBits [b0, b1, b2, b3, b4, b5, b6, b7] :: bitsToBytes rest := rfl
    rw [e, List.flatMap_cons,
      packBits_byteOfBits (hl b0 (by simp)) (hl b1 (by simp)) (hl b2 (by simp))
        (hl b3 (by simp)) (hl b4 (by simp)) (hl b5 (by simp)) (hl b6 (by simp))
        (hl b7 (by simp)),
      flatMap_bitsToBytes rest hr h8r]
    rfl
  | [b0], hl, h8 => by simp at h8
  | [b0, b1], hl, h8 => by simp at h8
  | [b0, b1, b2], hl, h8 => by simp at h8
  | [b0, b1, b2, b3], hl, h8 => by simp at h8
  | [b0, b1, b2, b3, b4], hl, h8 => by simp at h8
  | [b0, b1, b2, b3, b4, b5], hl, h8 => by simp at h8
  | [b0, b1, b2, b3, b4, b5, b6], hl, h8 => by simp at h8

theorem bitsToBytes_lt :
    ∀ l : List ℕ, (∀ b ∈ l, b < 2) → ∀ x ∈ bitsToBytes l, x < 256
  | [], _, x, hx => by simp [bitsToBytes] at hx
  | b0 :: b1 :: b2 :: b3 :: b4 :: b5 :: b6 :: b7 :: rest, hl, x, hx => by
    have e : bitsToBytes (b0 :: b1 :: b2 :: b3 :: b4 :: b5 :: b6 :: b7 :: rest) =
        byteOfBits [b0, b1, b2, b3, b4, b5, b6, b7] :: bitsToBytes rest := rfl
    rw [e, List.mem_cons] at hx
    rcases hx with rfl | hx
    · exact byteOfBits_lt (hl b0 (by simp)) (hl b1 (by simp)) (hl b2 (by simp))
        (hl b3 (by simp)) (hl b4 (by simp)) (hl b5 (by simp)) (hl b6 (by simp))
        (hl b7 (by simp))
    · exact bitsToBytes_lt rest (fun b hb => hl b (by simp [hb])) x hx
  | [b0], hl, x, hx => by simp [bitsToBytes] at hx
  | [b0, b1], hl, x, hx => by simp [bitsToBytes] at hx
  | [b0, b1, b2], hl, x, hx => by simp [bitsToBytes] at hx
  | [b0, b1, b2, b3], hl, x, hx => by simp [bitsToBytes] at hx
  | [b0, b1, b2, b3, b4], hl, x, hx => by simp [bitsToBytes] at hx
  | [b0, b1, b2, b3, b4, b5], hl, x, hx => by simp [bitsToBytes] at hx
  | [b0, b1, b2, b3, b4, b5, b6], hl, x, hx => by simp [bitsToBytes] at hx

/-- The unpacker constructed from the packer's bytes sees the packed bits
    followed by the byte-boundary zero padding. -/
theorem ofBytes_getBytes (p : BitPacker) (h : ∀ b ∈ p.bits, b < 2) :
    BitUnpacker.ofBytes p.getBytes =
      BitUnpacker.mk (p.bits ++ List.replicate ((8 - p.bits.length % 8) % 8) 0) 0 := by
  have hall : ∀ b ∈ p.bits ++ List.replicate ((8 - p.bits.length % 8) % 8) 0, b < 2 := by
    intro b hb
    rcases List.mem_append.mp hb with hb | hb
    · exact h b hb
    · rw [List.eq_of_mem_replicate hb]; omega
  have hlen : (p.bits ++ List.replicate ((8 - p.bits.length % 8) % 8) 0).length % 8 = 0 := by
    simp [List.length_append, List.length_replicate]
    omega
  simp only [BitUnpacker.ofBytes, BitPacker.getBytes]
  rw [flatMap_bitsToBytes _ hall hlen]

theorem getBytes_bytes_lt (p : BitPacker) (h : ∀ b ∈ p.bits, b < 2) :
    ∀ x ∈ p.getBytes, x < 256 := by
  intro x hx
  apply bitsToBytes_lt _ _ x hx
  intro b hb
  rcases List.mem_append.mp hb with hb | hb
  · exact h b hb
  · rw [List.eq_of_mem_replicate hb]; omega

/-! ## Base64 lemmas -/

/-- The sextet stream underlying `btoaChars` (without the padding
    characters): 3 bytes → 4 sextets, a final chunk of 1 or 2 bytes →
    2 or 3 sextets. -/
def bytesToSextets : List ℕ → List ℕ
  | [] => []
  | [a] => [a / 4, a % 4 * 16]
  | [a, b] => [a / 4, a % 4 * 16 + b / 16, b % 16 * 4]
  | a :: b :: c :: rest =>
      (a / 4) :: (a % 4 * 16 + b / 16) :: (b % 16 * 4 + c / 64) :: (c % 64) ::
        bytesToSextets rest

/-- The character a base64url encoding emits for sextet `i`: the standard
    character after the `+`→`-` and `/`→`_` replacements. -/
def b64UrlChar (i : ℕ) : Char :=
  (fun c => if c = '/' then '_' else c) ((fun c => if c = '+' then '-' else c) (b64Char i))

/-- The reverse character replacement performed by `decodeBase64url`. -/
def urlToStd (c : Char) : Char :=
  (fun c => if c = '_' then '/' else c) ((fun c => if c = '-' then '+' else c) c)

theorem btoaChars_eq : ∀ l : List ℕ,
    btoaChars l = (bytesToSextets l).map b64Char ++
      List.replicate ((3 - l.length % 3) % 3) '='
  | [] => rfl
  | [a] => rfl
  | [a, b] => rfl
  | a :: b :: c :: rest => by
    show _ :: _ :: _ :: _ :: btoaChars rest = _
    rw [btoaChars_eq rest]
    have hlen : ((a :: b :: c :: rest) : List ℕ).length % 3 = rest.length % 3 := by
      simp only [List.length_cons]
      omega
    simp only [bytesToSextets, List.map_cons, hlen, List.cons_append]

theorem bytesToSextets_lt : ∀ l : List ℕ, (∀ b ∈ l, b < 256) →
    ∀ s ∈ bytesToSextets l, s < 64
  | [], _, s, hs => by simp [bytesToSextets] at hs
  | [a], h, s, hs => by
    have ha := h a (by simp)
    simp only [bytesToSextets, List.mem_cons, List.not_mem_nil, or_false] at hs
    rcases hs with rfl | rfl <;> omega
  | [a, b], h, s, hs => by
    have ha := h a (by simp)
    have hb := h b (by simp)
    simp only [bytesToSextets, List.mem_cons, List.not_mem_nil, or_false] at hs
    rcases hs with rfl | rfl | rfl <;> omega
  | a :: b :: c :: d :: rest, h, s, hs => by
    have ha := h a (by simp)
    have hb := h b (by simp)
    have hc := h c (by simp)
    simp only [bytesToSextets, List.mem_cons] at hs
    rcases hs with rfl | rfl | rfl | rfl | hs
    · omega
    · omega
    · omega
    · omega
    · exact bytesToSextets_lt (d :: rest) (fun x hx => h x (by simp [hx])) s hs
  | [a, b, c], h, s, hs => by
    have ha := h a (by simp)
    have hb := h b (by simp)
    have hc := h c (by simp)
    simp only [bytesToSextets, List.mem_cons, List.not_mem_nil, or_false] at hs
    rcases hs with rfl | rfl | rfl | rfl <;> omega

theorem sextetsToBytes_bytesToSextets : ∀ l : List ℕ, (∀ b ∈ l, b < 256) →
    sextetsToBytes (bytesToSextets l) = some l
  | [], _ => rfl
  | [a], h => by
    have ha := h a (by simp)
    show some [a / 4 * 4 + a % 4 * 16 / 16] = some [a]
    congr 2
    omega
  | [a, b], h => by
    have ha := h a (by simp)
    have hb := h b (by simp)
    show some [a / 4 * 4 + (a % 4 * 16 + b / 16) / 16,
      (a % 4 * 16 + b / 16) % 16 * 16 + b % 16 * 4 / 4] = some [a, b]
    congr 3 <;> omega
  | a :: b :: c :: d :: rest, h => by
    have ha := h a (by simp)
    have hb := h b (by simp)
    have hc := h c (by simp)
    have ih := sextetsToBytes_bytesToSextets (d :: rest) (fun x hx => h x (by simp [hx]))
    show (do
      let tail ← sextetsToBytes (bytesToSextets (d :: rest))
      pure ((a / 4 * 4 + (a % 4 * 16 + b / 16) / 16) ::
        ((a % 4 * 16 + b / 16) % 16 * 16 + (b % 16 * 4 + c / 64) / 4) ::
        ((b % 16 * 4 + c / 64) % 4 * 64 + c % 64) :: tail)) = some (a :: b :: c :: d :: rest)
    rw [ih]
    show some _ = _
    congr 4 <;> omega
  | [a, b, c], h => by
    have ha := h a (by simp)
    have hb := h b (by simp)
    have hc := h c (by simp)
    show (do
      let tail ← sextetsToBytes ([] : List ℕ)
      pure ((a / 4 * 4 + (a % 4 * 16 + b / 16) / 16) ::
        ((a % 4 * 16 + b / 16) % 16 * 16 + (b % 16 * 4 + c / 64) / 4) ::
        ((b % 16 * 4 + c / 64) % 4 * 64 + c % 64) :: tail)) = some [a, b, c]
    show some _ = _
    congr 4 <;> omega

theorem bytesToSextets_length : ∀ l : List ℕ,
    (bytesToSextets l).length = l.length + (l.length + 2) / 3
  | [] => rfl
  | [a] => by simp [bytesToSextets]
  | [a, b] => by simp [bytesToSextets]
  | a :: b :: c :: rest => by
    have e : bytesToSextets (a :: b :: c :: rest) =
        (a / 4) :: (a % 4 * 16 + b / 16) :: (b % 16 * 4 + c / 64) :: (c % 64) ::
          bytesToSextets rest := rfl
    rw [e]
    simp only [List.length_cons, bytesToSextets_length rest]
    omega

set_option maxRecDepth 10000 in
theorem b64CharIndex_b64Char : ∀ i < 64, b64CharIndex (b64Char i) = some i := by
  decide

set_option maxRecDepth 10000 in
theorem b64Char_ne : ∀ i < 64, b64Char i ≠ '=' := by
  decide

set_option maxRecDepth 10000 in
theorem b64Char_not_ws : ∀ i < 64, isAsciiWs (b64Char i) = false := by
  decide

set_option maxRecDepth 10000 in
theorem urlToStd_b64UrlChar : ∀ i < 64, urlToStd (b64UrlChar i) = b64Char i := by
  decide

set_option maxRecDepth 10000 in
theorem b64UrlChar_ne : ∀ i < 64,
    b64UrlChar i ≠ '+' ∧ b64UrlChar i ≠ '/' ∧ b64UrlChar i ≠ '=' := by
  decide

/-- The two replacement maps of `encodeBase64url` together with the `=`
    filter turn `btoaChars` into the URL characters of the sextet
    stream. -/
theorem encodeBase64url_eq (data : List ℕ) (h : ∀ b ∈ data, b < 256) :
    encodeBase64url data = (bytesToSextets data).map b64UrlChar := by
  rw [encodeBase64url, btoaChars_eq]
  have hs := bytesToSextets_lt data h
  rw [List.map_append, List.map_append, List.filter_append]
  have hrep : ∀ k : ℕ,
      ((List.replicate k '=').map (fun c => if c = '+' then '-' else c)).map
        (fun c => if c = '/' then '_' else c) = List.replicate k '=' := by
    intro k
    simp [List.map_replicate]
  rw [hrep]
  have hfil : (List.replicate ((3 - data.length % 3) % 3) '=').filter
      (fun c => c ≠ '=') = [] := by
    simp [List.filter_replicate]
  rw [hfil, List.append_nil, List.map_map, List.map_map]
  have hmapped : (bytesToSextets data).map
      (((fun c => if c = '/' then '_' else c) ∘ fun c => if c = '+' then '-' else c) ∘
        b64Char) = (bytesToSextets data).map b64UrlChar :=
    List.map_congr_left (fun s _ => rfl)
  rw [hmapped]
  apply List.filter_eq_self.mpr
  intro c hc
  rcases List.mem_map.mp hc with ⟨s, hs', rfl⟩
  have hne := (b64UrlChar_ne s (hs s hs')).2.2
  simp [hne]

/-- Stripping the re-added padding: removing the `=` characters appended
    after a padding-free character list recovers it. -/
theorem stripBase64Pad_append_replicate (cs : List Char) (k : ℕ) (hk : k ≤ 2)
    (htot : (cs.length + k) % 4 = 0) (hlast : cs.getLast? ≠ some '=') :
    stripBase64Pad (cs ++ List.replicate k '=') = cs := by
  interval_cases k
  · rw [List.replicate_zero, List.append_nil, stripBase64Pad]
    rw [if_pos (by omega), if_neg hlast]
  · have e : cs ++ List.replicate 1 '=' = cs ++ ['='] := rfl
    rw [e, stripBase64Pad]
    rw [if_pos (by simp; omega)]
    rw [List.getLast?_concat, if_pos rfl, List.dropLast_concat, if_neg hlast]
  · have e : cs ++ List.replicate 2 '=' = (cs ++ ['=']) ++ ['='] := by
      simp [List.replicate]
    rw [e, stripBase64Pad]
    rw [if_pos (by simp; omega)]
    rw [List.getLast?_concat, if_pos rfl, List.dropLast_concat]
    show (if (cs ++ ['=']).getLast? = some '=' then (cs ++ ['=']).dropLast
      else cs ++ ['=']) = cs
    rw [List.getLast?_concat, if_pos rfl, List.dropLast_concat]

theorem mapM_b64CharIndex : ∀ ss : List ℕ, (∀ s ∈ ss, s < 64) →
    (ss.map b64Char).mapM b64CharIndex = some ss
  | [], _ => rfl
  | s :: rest, h => by
    rw [List.map_cons, List.mapM_cons, b64CharIndex_b64Char s (h s (by simp)),
      mapM_b64CharIndex rest (fun x hx => h x (by simp [hx]))]
    rfl

/-- Evaluating `atob` on a whitespace-free, padding-free character list
    with `=` padding re-appended. -/
theorem atob_eq (cs : List Char) (k : ℕ) (hk : k ≤ 2)
    (htot : (cs.length + k) % 4 = 0) (hlast : cs.getLast? ≠ some '=')
    (h1 : cs.length % 4 ≠ 1) (hws : ∀ c ∈ cs, isAsciiWs c = false) :
    atob (cs ++ List.replicate k '=') =
      (cs.mapM b64CharIndex).bind sextetsToBytes := by
  have hfilter : (cs ++ List.replicate k '=').filter (fun c => !isAsciiWs c) =
      cs ++ List.replicate k '=' := by
    apply List.filter_eq_self.mpr
    intro c hc
    rcases List.mem_append.mp hc with hc | hc
    · rw [hws c hc]
      rfl
    · rw [List.eq_of_mem_replicate hc]
      decide
  show (if (stripBase64Pad ((cs ++ List.replicate k '=').filter
        (fun c => !isAsciiWs c))).length % 4 = 1 then none
    else ((stripBase64Pad ((cs ++ List.replicate k '=').filter
        (fun c => !isAsciiWs c))).mapM b64CharIndex).bind
      sextetsToBytes) = _
  rw [hfilter, stripBase64Pad_append_replicate cs k hk htot hlast, if_neg h1]

/-- The decoder's two character replacements undo the encoder's, pointwise
    on an in-range sextet stream. -/
theorem map_urlToStd : ∀ ss : List ℕ, (∀ s ∈ ss, s < 64) →
    ((ss.map b64UrlChar).map (fun c => if c = '-' then '+' else c)).map
      (fun c => if c = '_' then '/' else c) = ss.map b64Char
  | [], _ => rfl
  | s :: rest, h => by
    simp only [List.map_cons]
    rw [map_urlToStd rest (fun x hx => h x (by simp [hx]))]
    congr 1
    exact urlToStd_b64UrlChar s (h s (by simp))

/-- Base64url round trip at the byte level. -/
theorem decodeBase64url_encodeBase64url (data : List ℕ) (h : ∀ b ∈ data, b < 256) :
    decodeBase64url (encodeBase64url data) = some data := by
  rw [encodeBase64url_eq data h]
  have hs := bytesToSextets_lt data h
  have hlen := bytesToSextets_length data
  show atob _ = some data
  rw [map_urlToStd _ hs]
  simp only [List.length_map]
  have hlast : ((bytesToSextets data).map b64Char).getLast? ≠ some '=' := by
    intro hcon
    rcases List.mem_map.mp (List.mem_of_mem_getLast? hcon) with ⟨s, hs', he⟩
    exact b64Char_ne s (hs s hs') he
  rw [atob_eq _ _ (by omega) (by simp only [List.length_map]; omega) hlast
    (by simp only [List.length_map]; omega)
    (fun c hc => by
      rcases List.mem_map.mp hc with ⟨s, hs', rfl⟩
      exact b64Char_not_ws s (hs s hs'))]
  rw [mapM_b64CharIndex _ hs]
  show sextetsToBytes (bytesToSextets data) = some data
  exact sextetsToBytes_bytesToSextets data h

/-! ## CRC lemmas

The shift-and-xor step is xor-linear, so the whole CRC is xor-affine; a
single flipped bit therefore changes the checksum by the image of a
nonzero value under a map that preserves nonzeroness. -/

theorem xor_xor_same (a b c : ℕ) : (a ^^^ c) ^^^ (b ^^^ c) = a ^^^ b := by
  rw [Nat.xor_assoc, Nat.xor_comm b c, ← Nat.xor_assoc c c b, Nat.xor_self,
    Nat.zero_xor]

theorem xor_left_comm (a b c : ℕ) : a ^^^ (b ^^^ c) = b ^^^ (a ^^^ c) := by
  rw [← Nat.xor_assoc, Nat.xor_comm a b, Nat.xor_assoc]

theorem xor_cancel_left (a b : ℕ) : a ^^^ (a ^^^ b) = b := by
  rw [← Nat.xor_assoc, Nat.xor_self, Nat.zero_xor]

theorem shiftLeft_one_xor (x y : ℕ) : (x ^^^ y) <<< 1 = (x <<< 1) ^^^ (y <<< 1) := by
  apply Nat.eq_of_testBit_eq
  intro i
  simp only [Nat.testBit_shiftLeft, Nat.testBit_xor]
  cases h : decide (i ≥ 1) <;> simp

theorem crcShift_linear (x y : ℕ) : crcShift (x ^^^ y) = crcShift x ^^^ crcShift y := by
  have h128 : (0x80 : ℕ) = 2 ^ 7 := by norm_num
  unfold crcShift
  rw [Nat.and_xor_distrib_right]
  rw [h128, Nat.and_two_pow, Nat.and_two_pow]
  cases hx : x.testBit 7 <;> cases hy : y.testBit 7 <;>
    simp only [Bool.toNat_true, Bool.toNat_false, Nat.zero_mul, Nat.one_mul,
      Nat.xor_zero, Nat.zero_xor, Nat.xor_self] <;>
    norm_num <;>
    rw [shiftLeft_one_xor] <;>
    simp [Nat.xor_assoc, Nat.xor_comm, xor_left_comm, xor_cancel_left, Nat.xor_self,
      Nat.xor_zero, Nat.zero_xor]

theorem crcShift_iterate_linear (n x y : ℕ) :
    crcShift^[n] (x ^^^ y) = crcShift^[n] x ^^^ crcShift^[n] y := by
  induction n generalizing x y with
  | zero => rfl
  | succ m ih =>
    rw [Function.iterate_succ_apply, Function.iterate_succ_apply,
      Function.iterate_succ_apply, crcShift_linear, ih]

theorem crcL_linear (x y : ℕ) : crcL (x ^^^ y) = crcL x ^^^ crcL y := by
  unfold crcL
  rw [crcShift_iterate_linear, Nat.and_xor_distrib_right]

theorem crcL_lt (x : ℕ) : crcL x < 256 := by
  have h : (0xff : ℕ) < 2 ^ 8 := by norm_num
  have := Nat.and_lt_two_pow (crcShift^[8] x) h
  simpa [crcL] using this

set_option maxRecDepth 10000 in
theorem crcL_ne_zero : ∀ x < 256, x ≠ 0 → crcL x ≠ 0 := by decide

theorem crcL_iterate_ne_zero (n : ℕ) :
    ∀ x, x < 256 → x ≠ 0 → crcL^[n] x ≠ 0 ∧ crcL^[n] x < 256 := by
  induction n with
  | zero => exact fun x hlt hnz => ⟨hnz, hlt⟩
  | succ m ih =>
    intro x hlt hnz
    rw [Function.iterate_succ_apply]
    exact ih (crcL x) (crcL_lt x) (crcL_ne_zero x hlt hnz)

theorem crcByte_xor_left (c d b : ℕ) :
    crcByte (c ^^^ d) b = crcByte c b ^^^ crcL d := by
  unfold crcByte
  rw [Nat.xor_comm c d, Nat.xor_assoc, ← crcL_linear, Nat.xor_comm d (c ^^^ b)]

theorem foldl_crcByte_xor : ∀ (l : List ℕ) (c d : ℕ),
    l.foldl crcByte (c ^^^ d) = l.foldl crcByte c ^^^ crcL^[l.length] d
  | [], c, d => rfl
  | b :: rest, c, d => by
    rw [List.foldl_cons, List.foldl_cons, crcByte_xor_left,
      foldl_crcByte_xor rest (crcByte c b) (crcL d)]
    simp [Function.iterate_succ_apply]

/-- Xor-ing one list entry into the CRC fold: the checksum moves by the
    iterated image of the disturbance. -/
theorem foldl_crcByte_set : ∀ (l : List ℕ) (c i v : ℕ), i < l.length →
    (l.set i (l.getD i 0 ^^^ v)).foldl crcByte c =
      l.foldl crcByte c ^^^ crcL^[l.length - i] v
  | [], _, i, _, h => by simp at h
  | x :: rest, c, 0, v, _ => by
    rw [List.set_cons_zero, List.getD_cons_zero, List.foldl_cons, List.foldl_cons]
    have hb : crcByte c (x ^^^ v) = crcByte c x ^^^ crcL v := by
      unfold crcByte
      rw [← Nat.xor_assoc, ← crcL_linear]
    rw [hb, foldl_crcByte_xor rest (crcByte c x) (crcL v)]
    simp [Function.iterate_succ_apply, List.length_cons, Nat.sub_zero]
  | x :: rest, c, i + 1, v, h => by
    rw [List.set_cons_succ, List.getD_cons_succ, List.foldl_cons, List.foldl_cons]
    rw [foldl_crcByte_set rest (crcByte c x) i v (by simpa using h)]
    have he : ((x :: rest) : List ℕ).length - (i + 1) = rest.length - i := by
      simp only [List.length_cons]
      omega
    rw [he]

/-- Appending the computed CRC always verifies. -/
theorem verifyCrc8_append (bytes : List ℕ) (h : bytes ≠ []) :
    verifyCrc8 (bytes ++ [crc8 bytes]) = true := by
  have hlen : (bytes ++ [crc8 bytes]).length = bytes.length + 1 := by simp
  have hge : ¬ ((bytes ++ [crc8 bytes]).length < 2) := by
    rw [hlen]
    have : bytes.length ≠ 0 := fun hc => h (List.length_eq_zero.mp hc)
    omega
  unfold verifyCrc8
  rw [if_neg hge]
  have hget : (bytes ++ [crc8 bytes]).getD ((bytes ++ [crc8 bytes]).length - 1) 0 =
      crc8 bytes := by
    rw [hlen, List.getD_eq_getElem?_getD, Nat.add_sub_cancel,
      List.getElem?_append_right (le_refl _), Nat.sub_self]
    rfl
  rw [hget, List.dropLast_concat]
  exact beq_self_eq_true _

/-- Unpacking a successful `verifyCrc8`. -/
theorem verifyCrc8_true_iff (b : List ℕ) :
    verifyCrc8 b = true ↔ 2 ≤ b.length ∧ b.getD (b.length - 1) 0 = crc8 b.dropLast := by
  unfold verifyCrc8
  by_cases h : b.length < 2
  · simp [h]
  · simp [h]
    omega

theorem getD_append_of_lt {d : List ℕ} {t : ℕ} {i : ℕ} (h : i < d.length) :
    (d ++ [t]).getD i 0 = d.getD i 0 := by
  rw [List.getD_eq_getElem?_getD, List.getD_eq_getElem?_getD,
    List.getElem?_append_left h]

theorem getD_append_last (d : List ℕ) (t : ℕ) :
    (d ++ [t]).getD d.length 0 = t := by
  rw [List.getD_eq_getElem?_getD, List.getElem?_append_right (le_refl _),
    Nat.sub_self]
  rfl

/-- Flipping one bit of the data part moves the computed CRC by a nonzero
    amount. -/
theorem crc8_set_ne (d : List ℕ) (i p : ℕ) (hi : i < d.length) (hp : p < 8) :
    crc8 (d.set i (d.getD i 0 ^^^ 2 ^ p)) ≠ crc8 d := by
  show (d.set i (d.getD i 0 ^^^ 2 ^ p)).foldl crcByte 0 ≠ d.foldl crcByte 0
  rw [foldl_crcByte_set d 0 i (2 ^ p) hi]
  have hplt : 2 ^ p < 256 := by
    have : 2 ^ p ≤ 2 ^ 7 := Nat.pow_le_pow_right (by omega) (by omega)
    omega
  have hnz : crcL^[d.length - i] (2 ^ p) ≠ 0 :=
    (crcL_iterate_ne_zero (d.length - i) (2 ^ p) hplt (pow_ne_zero p (by omega))).1
  intro hcon
  apply hnz
  have h2 := congrArg (fun z => d.foldl crcByte 0 ^^^ z) hcon
  simp only at h2
  rwa [xor_cancel_left, Nat.xor_self] at h2

/-- **C4.** For every byte sequence `b` of length at least 2 on which
    `verifyCrc8` returns true, flipping any single bit of `b` — bit `p < 8`
    of byte `i`, in any byte including the trailing CRC byte — yields a
    sequence on which `verifyCrc8` returns false. -/
theorem C4_crc_single_bit_flip (b : List ℕ) (i p : ℕ)
    (_hbytes : ∀ x ∈ b, x < 256) (hlen : 2 ≤ b.length)
    (hi : i < b.length) (hp : p < 8) (hv : verifyCrc8 b = true) :
    verifyCrc8 (b.set i (b.getD i 0 ^^^ 2 ^ p)) = false := by
  clear _hbytes
  obtain ⟨-, heq⟩ := (verifyCrc8_true_iff b).mp hv
  have hne : b ≠ [] := List.ne_nil_of_length_pos (by omega)
  obtain ⟨d, t, hb⟩ : ∃ d t, b = d ++ [t] :=
    ⟨b.dropLast, b.getLast hne, (List.dropLast_append_getLast hne).symm⟩
  subst hb
  have hdlen : ((d ++ [t]) : List ℕ).length = d.length + 1 := by simp
  rw [hdlen] at heq hi hlen
  simp only [Nat.add_sub_cancel] at heq
  rw [getD_append_last, List.dropLast_concat] at heq
  have hile : i ≤ d.length := by omega
  rcases lt_or_eq_of_le hile with hil | hieq
  · -- flip in the data region: the computed CRC changes, the stored CRC
    -- does not
    rw [List.set_append, if_pos hil, getD_append_of_lt hil]
    apply Bool.eq_false_iff.mpr
    intro hcon
    obtain ⟨-, heq'⟩ := (verifyCrc8_true_iff _).mp hcon
    have hslen : (d.set i (d.getD i 0 ^^^ 2 ^ p)).length = d.length :=
      List.length_set d i _
    have hL : ((d.set i (d.getD i 0 ^^^ 2 ^ p) ++ [t]) : List ℕ).length - 1 =
        (d.set i (d.getD i 0 ^^^ 2 ^ p)).length := by simp
    rw [hL, getD_append_last, List.dropLast_concat] at heq'
    exact crc8_set_ne d i p hil hp (heq'.symm.trans heq)
  · -- flip in the trailing CRC byte: the stored CRC changes, the computed
    -- CRC does not
    subst hieq
    rw [List.set_append, if_neg (lt_irrefl _), Nat.sub_self, getD_append_last]
    apply Bool.eq_false_iff.mpr
    intro hcon
    obtain ⟨-, heq'⟩ := (verifyCrc8_true_iff _).mp hcon
    have hL : ((d ++ [t].set 0 (t ^^^ 2 ^ p)) : List ℕ).length - 1 = d.length := by
      simp
    rw [hL] at heq'
    have hset : ([t].set 0 (t ^^^ 2 ^ p) : List ℕ) = [t ^^^ 2 ^ p] := rfl
    rw [hset, getD_append_last, List.dropLast_concat] at heq'
    have h2 : t ^^^ 2 ^ p = t := heq'.trans heq.symm
    have h3 := congrArg (fun z => t ^^^ z) h2
    simp only at h3
    rw [xor_cancel_left, Nat.xor_self] at h3
    exact pow_ne_zero p (by omega) h3

/-- Witness for C4: a concrete verified two-byte sequence whose first bit,
    once flipped, fails verification. -/
theorem C4_witness :
    verifyCrc8 (([32, crc8 [32]] : List ℕ).set 0
      ((([32, crc8 [32]] : List ℕ).getD 0 0) ^^^ 2 ^ 0)) = false :=
  C4_crc_single_bit_flip [32, crc8 [32]] 0 0 (by decide) (by decide) (by decide)
    (by decide) (by decide)

/-! ## Claim C6: base64url -/

/-- **C6.** `decodeBase64url ∘ encodeBase64url` is the identity on byte
    sequences, and the encoding never contains `+`, `/` or `=`. -/
theorem C6_base64url :
    (∀ b : List ℕ, (∀ x ∈ b, x < 256) →
      decodeBase64url (encodeBase64url b) = some b) ∧
    (∀ (b : List ℕ) (c : Char), c ∈ encodeBase64url b →
      c ≠ '+' ∧ c ≠ '/' ∧ c ≠ '=') := by
  refine ⟨decodeBase64url_encodeBase64url, ?_⟩
  intro b c hc
  unfold encodeBase64url at hc
  have hne := List.of_mem_filter hc
  have hcm := List.mem_of_mem_filter hc
  rcases List.mem_map.mp hcm with ⟨c1, hc1, rfl⟩
  refine ⟨?_, ?_, by simpa using hne⟩
  · rcases List.mem_map.mp hc1 with ⟨c2, _, rfl⟩
    by_cases h2 : c2 = '+' <;> by_cases h3 : (if c2 = '+' then '-' else c2) = '/' <;>
      simp [h2, h3] <;> intro hcon <;> simp_all
  · by_cases h3 : c1 = '/' <;> simp [h3]

/-- Witness for C6 at concrete inputs. -/
theorem C6_witness :
    decodeBase64url (encodeBase64url [1, 2, 3]) = some [1, 2, 3] ∧
      ('A' ≠ '+' ∧ 'A' ≠ '/' ∧ 'A' ≠ '=') :=
  ⟨C6_base64url.1 [1, 2, 3] (by decide), C6_base64url.2 [0] 'A' (by decide)⟩

/-! ## Further arithmetic helpers for the byte codecs -/

theorem and_two_pow_sub_one (x n : ℕ) : x &&& (2 ^ n - 1) = x % 2 ^ n := by
  apply Nat.eq_of_testBit_eq
  intro i
  rw [Nat.testBit_land, Nat.testBit_mod_two_pow, Nat.testBit_two_pow_sub_one]
  cases h : decide (i < n) <;> simp [h, Bool.and_comm]

theorem and_255 (x : ℕ) : x &&& 0xff = x % 256 := by
  have h := and_two_pow_sub_one x 8
  norm_num at h
  exact h

theorem and_7 (x : ℕ) : x &&& 0x07 = x % 8 := by
  have h := and_two_pow_sub_one x 3
  norm_num at h
  exact h

theorem and_15 (x : ℕ) : x &&& 0x0f = x % 16 := by
  have h := and_two_pow_sub_one x 4
  norm_num at h
  exact h

theorem foldl_crcByte_lt : ∀ (l : List ℕ) (c : ℕ), c < 256 → l.foldl crcByte c < 256
  | [], c, h => h
  | b :: rest, c, _ => by
    rw [List.foldl_cons]
    exact foldl_crcByte_lt rest (crcByte c b) (crcL_lt _)

theorem crc8_lt (l : List ℕ) : crc8 l < 256 :=
  foldl_crcByte_lt l 0 (by omega)

theorem isPrefixOf_append (pre rest : List Char) :
    pre.isPrefixOf (pre ++ rest) = true :=
  List.isPrefixOf_iff_prefix.mpr (List.prefix_append pre rest)

/-! ## D-code lemmas -/

namespace DCode

/-- The three payload bytes packed by `encodeDCode`, as a function of the
    day count and the gender bit (dcode.js lines 64–68). -/
def packedBytes (d g : ℕ) : List ℕ :=
  [(SCHEMA_VERSION <<< 4) ||| (g <<< 3) ||| ((d >>> 13) &&& 0x07),
   (d >>> 5) &&& 0xff,
   (d <<< 3) &&& 0xff]

theorem encodeDCode_eq (dob : ℤ) (gender : Gender)
    (h0 : 0 ≤ dateToDaysSinceEpoch dob) (h1 : dateToDaysSinceEpoch dob ≤ 0xffff) :
    encodeDCode ⟨some dob, some gender⟩ =
      .ok (PREFIX_TAG ++ encodeBase64url
        (packedBytes (dateToDaysSinceEpoch dob).toNat
            (if gender = Gender.FEMALE then 1 else 0) ++
          [crc8 (packedBytes (dateToDaysSinceEpoch dob).toNat
            (if gender = Gender.FEMALE then 1 else 0))])) := by
  have hcond : ¬ (dateToDaysSinceEpoch dob < 0 ∨ dateToDaysSinceEpoch dob > 0xffff) := by
    push_neg
    exact ⟨h0, h1⟩
  show (if dateToDaysSinceEpoch dob < 0 ∨ dateToDaysSinceEpoch dob > 0xffff
    then (Except.error CodecError.dobOutOfRange : Except CodecError (List Char))
    else .ok (PREFIX_TAG ++ encodeBase64url
      (packedBytes (dateToDaysSinceEpoch dob).toNat
          (if gender = Gender.FEMALE then 1 else 0) ++
        [crc8 (packedBytes (dateToDaysSinceEpoch dob).toNat
          (if gender = Gender.FEMALE then 1 else 0))]))) = _
  rw [if_neg hcond]

/-- Value of the first packed byte. -/
theorem packedBytes_byte0 (d g : ℕ) (hd : d < 65536) (hg : g < 2) :
    (SCHEMA_VERSION <<< 4) ||| (g <<< 3) ||| ((d >>> 13) &&& 0x07) =
      16 + 8 * g + d / 8192 := by
  have e1 : SCHEMA_VERSION <<< 4 = 16 := rfl
  have e2 : g <<< 3 = 8 * g := by rw [Nat.shiftLeft_eq]; ring
  have e3 : (d >>> 13) &&& 0x07 = d / 8192 := by
    rw [and_7, Nat.shiftRight_eq_div_pow]
    norm_num
    omega
  have e4 : (16 : ℕ) ||| (g <<< 3) = 16 + 8 * g := by
    rw [e2]
    exact lor_eq_add_of_mod (k := 4) (by norm_num) (by omega)
  rw [e1, e4, e3]
  exact lor_eq_add_of_mod (k := 3) (by omega) (by omega)

theorem packedBytes_lt (d g : ℕ) (hd : d < 65536) (hg : g < 2) :
    ∀ x ∈ packedBytes d g, x < 256 := by
  intro x hx
  unfold packedBytes at hx
  rw [packedBytes_byte0 d g hd hg] at hx
  simp only [List.mem_cons, List.not_mem_nil, or_false] at hx
  rcases hx with rfl | rfl | rfl
  · omega
  · rw [and_255]; omega
  · rw [and_255]; omega

/-- Reconstruction of the decoder's unpacked fields from the packed
    bytes. -/
theorem packedBytes_fields (d g : ℕ) (hd : d < 65536) (hg : g < 2) :
    ((packedBytes d g).getD 0 0 >>> 4) &&& 0x0f = 1 ∧
    ((packedBytes d g).getD 0 0 >>> 3) &&& 0x01 = g ∧
    (((packedBytes d g).getD 0 0 &&& 0x07) <<< 13) |||
        ((packedBytes d g).getD 1 0 <<< 5) ||| ((packedBytes d g).getD 2 0 >>> 3) = d := by
  have hb0 : (packedBytes d g).getD 0 0 = 16 + 8 * g + d / 8192 := by
    show (SCHEMA_VERSION <<< 4) ||| (g <<< 3) ||| ((d >>> 13) &&& 0x07) = _
    exact packedBytes_byte0 d g hd hg
  have hb1 : (packedBytes d g).getD 1 0 = d / 32 % 256 := by
    show (d >>> 5) &&& 0xff = _
    rw [and_255, Nat.shiftRight_eq_div_pow]
  have hb2 : (packedBytes d g).getD 2 0 = 8 * d % 256 := by
    show (d <<< 3) &&& 0xff = _
    rw [and_255, Nat.shiftLeft_eq]
    have e : d * 2 ^ 3 = 8 * d := by ring
    rw [e]
  refine ⟨?_, ?_, ?_⟩
  · rw [hb0, and_15, Nat.shiftRight_eq_div_pow]
    norm_num
    omega
  · rw [hb0, Nat.and_one_is_mod, Nat.shiftRight_eq_div_pow]
    norm_num
    omega
  · rw [hb0, hb1, hb2, and_7]
    have e0 : (16 + 8 * g + d / 8192) % 8 = d / 8192 := by omega
    rw [e0]
    have eA : (d / 8192) <<< 13 = 8192 * (d / 8192) := by
      rw [Nat.shiftLeft_eq]
      norm_num
      ring
    have eB : (d / 32 % 256) <<< 5 = 32 * (d / 32 % 256) := by
      rw [Nat.shiftLeft_eq]
      norm_num
      ring
    have eC : (8 * d % 256) >>> 3 = d % 32 := by
      rw [Nat.shiftRight_eq_div_pow]
      norm_num
      omega
    rw [eA, eB, eC]
    have h1 : 8192 * (d / 8192) ||| 32 * (d / 32 % 256) =
        8192 * (d / 8192) + 32 * (d / 32 % 256) :=
      lor_eq_add_of_mod (k := 13) (by omega) (by norm_num; omega)
    rw [h1]
    have h2 : (8192 * (d / 8192) + 32 * (d / 32 % 256)) ||| (d % 32) =
        8192 * (d / 8192) + 32 * (d / 32 % 256) + d % 32 :=
      lor_eq_add_of_mod (k := 5) (by norm_num; omega) (by norm_num; omega)
    rw [h2]
    omega

/-- Full evaluation of `decodeDCode` on a well-formed encoded token. -/
theorem decodeDCode_ok (d g : ℕ) (hd : d < 65536) (hg : g < 2) :
    decodeDCode (PREFIX_TAG ++
        encodeBase64url (packedBytes d g ++ [crc8 (packedBytes d g)])) =
      .ok { dob := daysToDate d,
            gender := if g = 1 then Gender.FEMALE else Gender.MALE,
            schemaVersion := 1 } := by
  have hbytes := packedBytes_lt d g hd hg
  have hall : ∀ x ∈ packedBytes d g ++ [crc8 (packedBytes d g)], x < 256 := by
    intro x hx
    rcases List.mem_append.mp hx with hx | hx
    · exact hbytes x hx
    · simp only [List.mem_singleton] at hx
      subst hx
      exact crc8_lt _
  have hne : packedBytes d g ≠ [] := by simp [packedBytes]
  obtain ⟨hf0, hf1, hf2⟩ := packedBytes_fields d g hd hg
  unfold decodeDCode
  rw [if_neg (fun hc => hc (isPrefixOf_append _ _))]
  rw [List.drop_left]
  simp only [decodeBase64url_encodeBase64url _ hall, verifyCrc8_append _ hne,
    List.dropLast_concat, not_true, if_false, hf0, hf1, hf2]
  rw [if_neg (show ¬ ((packedBytes d g).length ≠ 3) from by simp [packedBytes])]
  rw [if_neg (show ¬ ((1 : ℕ) > SCHEMA_VERSION) from by decide)]

/-- **C5.** For every `DemographicsRecord` with both fields present and a
    date of birth whose day count from the epoch lies in `[0, 65535]`,
    decoding the encoded token reproduces the gender exactly and the date
    of birth truncated to day granularity. -/
theorem C5_dcode_roundtrip (dob : ℤ) (gender : Gender)
    (h0 : 0 ≤ dateToDaysSinceEpoch dob) (h1 : dateToDaysSinceEpoch dob ≤ 65535) :
    ∃ t, encodeDCode ⟨some dob, some gender⟩ = .ok t ∧
      decodeDCode t = .ok { dob := daysToDate (dateToDaysSinceEpoch dob),
                            gender := gender,
                            schemaVersion := 1 } := by
  refine ⟨_, encodeDCode_eq dob gender h0 (by omega), ?_⟩
  have hd : (dateToDaysSinceEpoch dob).toNat < 65536 := by omega
  have hcast : ((dateToDaysSinceEpoch dob).toNat : ℤ) = dateToDaysSinceEpoch dob :=
    Int.toNat_of_nonneg h0
  cases gender with
  | MALE =>
    have he := decodeDCode_ok (dateToDaysSinceEpoch dob).toNat 0 hd (by omega)
    rw [if_neg (by decide : ¬ (Gender.MALE = Gender.FEMALE))]
    rw [he, if_neg (by decide : ¬ ((0 : ℕ) = 1))]
    unfold daysToDate
    rw [hcast]
  | FEMALE =>
    have he := decodeDCode_ok (dateToDaysSinceEpoch dob).toNat 1 hd (by omega)
    rw [if_pos rfl]
    rw [he, if_pos rfl]
    unfold daysToDate
    rw [hcast]

end DCode

/-! ## Bounds on decoded bytes (needed for the version-guard and
    length-tolerance claims) -/

theorem b64Alphabet_length : b64Alphabet.length = 64 := by decide

theorem b64CharIndex_lt {c : Char} {i : ℕ} (h : b64CharIndex c = some i) : i < 64 := by
  unfold b64CharIndex at h
  have h2 := (List.findIdx?_eq_some_iff_findIdx_eq.mp h).1
  rwa [b64Alphabet_length] at h2

theorem mapM_b64CharIndex_lt : ∀ (cs : List Char) (ss : List ℕ),
    cs.mapM b64CharIndex = some ss → ∀ i ∈ ss, i < 64
  | [], ss, h => by
    intro i hi
    simp only [List.mapM_nil, Option.pure_def, Option.some.injEq] at h
    subst h
    simp at hi
  | c :: rest, ss, h => by
    intro i hi
    rw [List.mapM_cons] at h
    cases hc : b64CharIndex c with
    | none => rw [hc] at h; simp at h
    | some i0 =>
      rw [hc] at h
      cases hr : rest.mapM b64CharIndex with
      | none => rw [hr] at h; simp at h
      | some ss0 =>
        rw [hr] at h
        have h' : some (i0 :: ss0) = some ss := h
        have he := Option.some.inj h'
        subst he
        rcases List.mem_cons.mp hi with rfl | hi0
        · exact b64CharIndex_lt hc
        · exact mapM_b64CharIndex_lt rest ss0 hr i hi0

theorem sextetsToBytes_out_lt : ∀ (ss bs : List ℕ), sextetsToBytes ss = some bs →
    (∀ i ∈ ss, i < 64) → ∀ x ∈ bs, x < 256
  | [], bs, h, _ => by
    intro x hx
    simp only [sextetsToBytes, Option.some.injEq] at h
    subst h
    simp at hx
  | [a], bs, h, _ => by simp [sextetsToBytes] at h
  | [a, b], bs, h, hss => by
    intro x hx
    have ha := hss a (by simp)
    have hb := hss b (by simp)
    simp only [sextetsToBytes, Option.some.injEq] at h
    subst h
    simp only [List.mem_singleton] at hx
    subst hx
    omega
  | [a, b, c], bs, h, hss => by
    intro x hx
    have ha := hss a (by simp)
    have hb := hss b (by simp)
    have hc := hss c (by simp)
    simp only [sextetsToBytes, Option.some.injEq] at h
    subst h
    simp only [List.mem_cons, List.not_mem_nil, or_false] at hx
    rcases hx with rfl | rfl <;> omega
  | a :: b :: c :: d :: rest, bs, h, hss => by
    intro x hx
    have ha := hss a (by simp)
    have hb := hss b (by simp)
    have hc := hss c (by simp)
    have hd := hss d (by simp)
    have e : sextetsToBytes (a :: b :: c :: d :: rest) =
        (sextetsToBytes rest).bind (fun tail =>
          some ((a * 4 + b / 16) :: (b % 16 * 16 + c / 4) :: (c % 4 * 64 + d) :: tail)) := by
      rfl
    rw [e] at h
    cases hr : sextetsToBytes rest with
    | none => rw [hr] at h; simp at h
    | some tail =>
      rw [hr] at h
      simp only [Option.some_bind, Option.some.injEq] at h
      subst h
      rcases List.mem_cons.mp hx with rfl | hx
      · omega
      rcases List.mem_cons.mp hx with rfl | hx
      · omega
      rcases List.mem_cons.mp hx with rfl | hx
      · omega
      · exact sextetsToBytes_out_lt rest tail hr
          (fun i hi => hss i (by simp [hi])) x hx

/-- Decomposing a successful `atob`. -/
theorem atob_some {cs : List Char} {bytes : List ℕ} (h : atob cs = some bytes) :
    ∃ ss, (stripBase64Pad (cs.filter (fun c => !isAsciiWs c))).mapM b64CharIndex =
        some ss ∧
      sextetsToBytes ss = some bytes := by
  unfold atob at h
  by_cases hlen : (stripBase64Pad (cs.filter (fun c => !isAsciiWs c))).length % 4 = 1
  · rw [if_pos hlen] at h
    simp at h
  · rw [if_neg hlen] at h
    cases hm : (stripBase64Pad (cs.filter (fun c => !isAsciiWs c))).mapM b64CharIndex with
    | none =>
      rw [hm] at h
      exact Option.noConfusion (show (none : Option (List ℕ)) = some bytes from h)
    | some ss =>
      rw [hm] at h
      exact ⟨ss, rfl, show sextetsToBytes ss = some bytes from h⟩

/-- Every byte produced by `decodeBase64url` is below 256. -/
theorem decodeBase64url_bytes_lt {s : List Char} {bytes : List ℕ}
    (h : decodeBase64url s = some bytes) : ∀ x ∈ bytes, x < 256 := by
  unfold decodeBase64url at h
  obtain ⟨ss, hm, hs⟩ := atob_some h
  exact sextetsToBytes_out_lt ss bytes hs (mapM_b64CharIndex_lt _ ss hm)

/-! ## Claim C7: version guard -/

/-- The bit stream of a byte list starts with the high nibble of its first
    byte as a 4-bit field. -/
theorem flatMap_cons_split (b0 : ℕ) (rest : List ℕ) :
    ((b0 :: rest).flatMap (fun b => packBits b 8) : List ℕ) =
      packBits (b0 >>> 4) 4 ++ (packBits b0 4 ++ rest.flatMap (fun b => packBits b 8)) := by
  rw [List.flatMap_cons, show (8 : ℕ) = 4 + 4 from rfl, packBits_add, List.append_assoc]

/-- The first 4-bit read of the unpacker on a byte list is the high nibble
    of its first byte. -/
theorem ofBytes_first_nibble (b : ℕ) (rest : List ℕ) (hb : b < 256) :
    ((BitUnpacker.ofBytes (b :: rest)).unpack 4).1 = b >>> 4 := by
  have hlt : b >>> 4 < 2 ^ 4 := by
    rw [Nat.shiftRight_eq_div_pow]
    norm_num
    omega
  show readBitsFrom ((b :: rest).flatMap fun c => packBits c 8) 0 4 0 = b >>> 4
  rw [readBitsFrom_spec 4 _ 0 0 (b >>> 4)
    (packBits b 4 ++ rest.flatMap fun c => packBits c 8)
    (by rw [List.drop_zero]; exact flatMap_cons_split b rest)]
  rw [Nat.mod_eq_of_lt hlt]
  omega

/-- **C7.** A payload that passes CRC verification but carries a
    schemaVersion field above the highest implemented version (2 for
    S-codes, read from the first four bits; 1 for D-codes, read from the
    high nibble of the first of the three data bytes) is rejected with the
    newer-version error by the respective decoder. -/
theorem C7_version_guard :
    (∀ (s : List Char) (bytes : List ℕ),
        decodeBase64url s = some bytes → verifyCrc8 bytes = true →
        2 < bytes.getD 0 0 >>> 4 →
        SCode.decodeSCode (SCode.PREFIX_TAG ++ s) = .error .newerVersion) ∧
    (∀ (s : List Char) (bytes : List ℕ),
        decodeBase64url s = some bytes → verifyCrc8 bytes = true →
        bytes.dropLast.length = 3 →
        1 < (bytes.getD 0 0 >>> 4) &&& 0x0f →
        DCode.decodeDCode (DCode.PREFIX_TAG ++ s) = .error .newerVersion) := by
  constructor
  · intro s bytes hdec hver hv
    have hlen := ((verifyCrc8_true_iff bytes).mp hver).1
    obtain ⟨x, y, tail, hb⟩ : ∃ x y tail, bytes = x :: y :: tail := by
      match bytes, hlen with
      | x :: y :: tail, _ => exact ⟨x, y, tail, rfl⟩
    subst hb
    have hx : x < 256 := decodeBase64url_bytes_lt hdec x (by simp)
    have hdl : ((x :: y :: tail) : List ℕ).dropLast = x :: (y :: tail).dropLast := rfl
    have hv' : 2 < x >>> 4 := by simpa using hv
    have hnib : ((BitUnpacker.ofBytes (((x :: y :: tail) : List ℕ).dropLast)).unpack 4).1 =
        x >>> 4 := by
      rw [hdl]
      exact ofBytes_first_nibble x _ hx
    unfold SCode.decodeSCode
    rw [if_neg (fun hc => hc (isPrefixOf_append _ _)), List.drop_left]
    simp only [hdec]
    rw [if_neg (by simp [hver])]
    unfold SCode.unpackAssessment
    rw [if_pos (show ((BitUnpacker.ofBytes (((x :: y :: tail) : List ℕ).dropLast)).unpack
      4).1 > SCode.SCHEMA_VERSION from by rw [hnib]; exact hv')]
  · intro s bytes hdec hver hlen3 hv
    have hlen := ((verifyCrc8_true_iff bytes).mp hver).1
    obtain ⟨x, y, tail, hb⟩ : ∃ x y tail, bytes = x :: y :: tail := by
      match bytes, hlen with
      | x :: y :: tail, _ => exact ⟨x, y, tail, rfl⟩
    subst hb
    have hdl : ((x :: y :: tail) : List ℕ).dropLast = x :: (y :: tail).dropLast := rfl
    have hv' : 1 < (x >>> 4) &&& 0x0f := by simpa using hv
    unfold DCode.decodeDCode
    rw [if_neg (fun hc => hc (isPrefixOf_append _ _)), List.drop_left]
    simp only [hdec]
    rw [if_neg (by simp [hver])]
    rw [if_neg (show ¬ (((x :: y :: tail) : List ℕ).dropLast.length ≠ 3) from by
      simp only [hlen3]
      omega)]
    rw [if_pos (show DCode.SCHEMA_VERSION <
      ((x :: y :: tail) : List ℕ).dropLast.getD 0 0 >>> 4 &&& 0x0f from by
        rw [hdl]
        simpa using hv')]

/-- Witness for C7: hand-built payloads with schemaVersion nibble 15 and a
    valid CRC fail both decoders with the newer-version error. -/
theorem C7_witness :
    SCode.decodeSCode (SCode.PREFIX_TAG ++
        encodeBase64url [0xF0, crc8 [0xF0]]) = .error .newerVersion ∧
    DCode.decodeDCode (DCode.PREFIX_TAG ++
        encodeBase64url [0xF0, 0, 0, crc8 [0xF0, 0, 0]]) = .error .newerVersion :=
  ⟨C7_version_guard.1 (encodeBase64url [0xF0, crc8 [0xF0]]) [0xF0, crc8 [0xF0]]
      (by decide) (by decide) (by decide),
   C7_version_guard.2 (encodeBase64url [0xF0, 0, 0, crc8 [0xF0, 0, 0]])
      [0xF0, 0, 0, crc8 [0xF0, 0, 0]] (by decide) (by decide) (by decide) (by decide)⟩

/-! ## S-code encode characterization

The packing calls of `encodeSCode` are flattened into one explicit bit
list, so that the byte-level layout can be stated and the decoder's reads
chained against it. -/

theorem jsRound_natCast (n : ℕ) : jsRound (n : ℚ) = n := by
  unfold jsRound
  rw [show ((n : ℚ) + 1 / 2) = ((n : ℤ) : ℚ) + (1 / 2 : ℚ) by push_cast; ring]
  rw [Int.floor_int_add]
  norm_num

theorem jsRound_tenths (k : ℕ) : jsRound ((k : ℚ) / 10 * 10) = k := by
  rw [show ((k : ℚ) / 10 * 10) = (k : ℚ) by field_simp]
  exact jsRound_natCast k

namespace SCode

/-- The bits `packCardio` appends. -/
def cardioBits (c : Option ComponentIn) : List ℕ :=
  match c with
  | none => []
  | some cc =>
    packBits ((CARDIO_EXERCISES cc.exercise).getD 0) 3 ++
      packBits (if cc.exempt then 1 else 0) 1 ++
      (if cc.exempt then [] else packBits (jsRound cc.value).toNat 12)

/-- The bits `packStrength` appends. -/
def strengthBits (c : Option ComponentIn) : List ℕ :=
  match c with
  | none => []
  | some cc =>
    packBits ((STRENGTH_EXERCISES cc.exercise).getD 0) 2 ++
      packBits (if cc.exempt then 1 else 0) 1 ++
      (if cc.exempt then [] else packBits (jsRound cc.value).toNat 7)

/-- The bits `packCore` appends. -/
def coreBits (c : Option ComponentIn) : List ℕ :=
  match c with
  | none => []
  | some cc =>
    packBits ((CORE_EXERCISES cc.exercise).getD 0) 2 ++
      packBits (if cc.exempt then 1 else 0) 1 ++
      (if cc.exempt then [] else packBits (jsRound cc.value).toNat 12)

/-- The bits `packBodyComp` appends. -/
def bodyCompBits (c : Option BodyCompIn) : List ℕ :=
  match c with
  | none => []
  | some cc =>
    packBits (if cc.exempt then 1 else 0) 1 ++
      (if cc.exempt then []
       else packBits (jsRound (cc.heightInches * 10)).toNat 11 ++
         packBits (jsRound (cc.waistInches * 10)).toNat 10)

/-- The whole bit stream `encodeSCode` assembles: 4+4+16+1 header bits,
    four presence bits, then the four component sections. -/
def sBits (isDiagnosticPeriod : ℤ → Bool) (date : ℤ) (a : AssessmentIn) : List ℕ :=
  packBits SCHEMA_VERSION 4 ++ packBits CHART_VERSION 4 ++
    packBits (dateToDays date).toNat 16 ++
    packBits (if isDiagnosticPeriod date then 1 else 0) 1 ++
    packBits (if a.cardio.isSome then 1 else 0) 1 ++
    packBits (if a.strength.isSome then 1 else 0) 1 ++
    packBits (if a.core.isSome then 1 else 0) 1 ++
    packBits (if a.bodyComp.isSome then 1 else 0) 1 ++
    cardioBits a.cardio ++ strengthBits a.strength ++ coreBits a.core ++
    bodyCompBits a.bodyComp

theorem packCardio_eq (p : BitPacker) (c : Option ComponentIn) :
    packCardio p c = ⟨p.bits ++ cardioBits c⟩ := by
  cases c with
  | none => simp [packCardio, cardioBits]
  | some cc =>
    by_cases he : cc.exempt <;>
      simp [packCardio, cardioBits, BitPacker.pack, he, List.append_assoc]

theorem packStrength_eq (p : BitPacker) (c : Option ComponentIn) :
    packStrength p c = ⟨p.bits ++ strengthBits c⟩ := by
  cases c with
  | none => simp [packStrength, strengthBits]
  | some cc =>
    by_cases he : cc.exempt <;>
      simp [packStrength, strengthBits, BitPacker.pack, he, List.append_assoc]

theorem packCore_eq (p : BitPacker) (c : Option ComponentIn) :
    packCore p c = ⟨p.bits ++ coreBits c⟩ := by
  cases c with
  | none => simp [packCore, coreBits]
  | some cc =>
    by_cases he : cc.exempt <;>
      simp [packCore, coreBits, BitPacker.pack, he, List.append_assoc]

theorem packBodyComp_eq (p : BitPacker) (c : Option BodyCompIn) :
    packBodyComp p c = ⟨p.bits ++ bodyCompBits c⟩ := by
  cases c with
  | none => simp [packBodyComp, bodyCompBits]
  | some cc =>
    by_cases he : cc.exempt <;>
      simp [packBodyComp, bodyCompBits, BitPacker.pack, he, List.append_assoc]

/-- `encodeSCode` on a dated assessment: the guards pass and the token is
    the prefixed base64url encoding of the byte-padded bit stream plus its
    CRC byte. -/
theorem encodeSCode_eq (f : ℤ → Bool) (a : AssessmentIn) (date : ℤ)
    (hd : a.date = some date) :
    encodeSCode f a =
      .ok (PREFIX_TAG ++ encodeBase64url
        ((BitPacker.mk (sBits f date a)).getBytes ++
          [crc8 (BitPacker.mk (sBits f date a)).getBytes])) := by
  unfold encodeSCode
  rw [hd]
  simp only [BitPacker.pack, packCardio_eq, packStrength_eq, packCore_eq,
    packBodyComp_eq, sBits, List.nil_append, List.append_assoc]

theorem mem_append_lt {l₁ l₂ : List ℕ} (h₁ : ∀ b ∈ l₁, b < 2) (h₂ : ∀ b ∈ l₂, b < 2) :
    ∀ b ∈ l₁ ++ l₂, b < 2 := by
  intro b hb
  rcases List.mem_append.mp hb with hb | hb
  · exact h₁ b hb
  · exact h₂ b hb

theorem cardioBits_lt (c : Option ComponentIn) : ∀ b ∈ cardioBits c, b < 2 := by
  cases c with
  | none => simp [cardioBits]
  | some cc =>
    show ∀ b ∈ packBits _ 3 ++ packBits _ 1 ++ _, b < 2
    refine mem_append_lt (mem_append_lt (packBits_bits_lt _ _) (packBits_bits_lt _ _)) ?_
    by_cases he : cc.exempt <;> simp only [he, if_true, if_false]
    · simp
    · exact packBits_bits_lt _ _

theorem strengthBits_lt (c : Option ComponentIn) : ∀ b ∈ strengthBits c, b < 2 := by
  cases c with
  | none => simp [strengthBits]
  | some cc =>
    show ∀ b ∈ packBits _ 2 ++ packBits _ 1 ++ _, b < 2
    refine mem_append_lt (mem_append_lt (packBits_bits_lt _ _) (packBits_bits_lt _ _)) ?_
    by_cases he : cc.exempt <;> simp only [he, if_true, if_false]
    · simp
    · exact packBits_bits_lt _ _

theorem coreBits_lt (c : Option ComponentIn) : ∀ b ∈ coreBits c, b < 2 := by
  cases c with
  | none => simp [coreBits]
  | some cc =>
    show ∀ b ∈ packBits _ 2 ++ packBits _ 1 ++ _, b < 2
    refine mem_append_lt (mem_append_lt (packBits_bits_lt _ _) (packBits_bits_lt _ _)) ?_
    by_cases he : cc.exempt <;> simp only [he, if_true, if_false]
    · simp
    · exact packBits_bits_lt _ _

theorem bodyCompBits_lt (c : Option BodyCompIn) : ∀ b ∈ bodyCompBits c, b < 2 := by
  cases c with
  | none => simp [bodyCompBits]
  | some cc =>
    show ∀ b ∈ packBits _ 1 ++ _, b < 2
    refine mem_append_lt (packBits_bits_lt _ _) ?_
    by_cases he : cc.exempt <;> simp only [he, if_true, if_false]
    · simp
    · exact mem_append_lt (packBits_bits_lt _ _) (packBits_bits_lt _ _)

theorem sBits_lt (f : ℤ → Bool) (date : ℤ) (a : AssessmentIn) :
    ∀ b ∈ sBits f date a, b < 2 := by
  unfold sBits
  refine mem_append_lt (mem_append_lt (mem_append_lt (mem_append_lt (mem_append_lt
    (mem_append_lt (mem_append_lt (mem_append_lt (mem_append_lt (mem_append_lt
    (mem_append_lt (packBits_bits_lt _ _) (packBits_bits_lt _ _))
    (packBits_bits_lt _ _)) (packBits_bits_lt _ _)) (packBits_bits_lt _ _))
    (packBits_bits_lt _ _)) (packBits_bits_lt _ _)) (packBits_bits_lt _ _))
    (cardioBits_lt _)) (strengthBits_lt _)) (coreBits_lt _)) (bodyCompBits_lt _)

/-! ### The exercise tables are inverse pairs on their domains -/

theorem cardio_table_rev {name : String} {k : ℕ} (h : CARDIO_EXERCISES name = some k) :
    k < 8 ∧ CARDIO_EXERCISES_REV k = some name := by
  unfold CARDIO_EXERCISES at h
  split at h
  all_goals try exact Option.noConfusion h
  all_goals obtain rfl := Option.some.inj h
  all_goals exact ⟨by norm_num, rfl⟩

theorem strength_table_rev {name : String} {k : ℕ}
    (h : STRENGTH_EXERCISES name = some k) :
    k < 4 ∧ STRENGTH_EXERCISES_REV k = some name := by
  unfold STRENGTH_EXERCISES at h
  split at h
  all_goals try exact Option.noConfusion h
  all_goals obtain rfl := Option.some.inj h
  all_goals exact ⟨by norm_num, rfl⟩

theorem core_table_rev {name : String} {k : ℕ} (h : CORE_EXERCISES name = some k) :
    k < 4 ∧ CORE_EXERCISES_REV k = some name := by
  unfold CORE_EXERCISES at h
  split at h
  all_goals try exact Option.noConfusion h
  all_goals obtain rfl := Option.some.inj h
  all_goals exact ⟨by norm_num, rfl⟩

/-! ### Evaluating the component readers against the packed sections -/

theorem readCardio_none (u : BitUnpacker) : readCardio u false = (none, u) := by
  simp [readCardio]

theorem readCardio_exempt (bits L2 : List ℕ) (pos k : ℕ) (cc : ComponentIn)
    (htab : CARDIO_EXERCISES cc.exercise = some k) (hex : cc.exempt = true)
    (hdrop : bits.drop pos = cardioBits (some cc) ++ L2) :
    readCardio ⟨bits, pos⟩ true =
      (some { exercise := cc.exercise, value := none, exempt := true },
        ⟨bits, pos + 3 + 1⟩) ∧
      bits.drop (pos + 3 + 1) = L2 := by
  obtain ⟨hk, hrev⟩ := cardio_table_rev htab
  have hbits : bits.drop pos = packBits k 3 ++ (packBits 1 1 ++ L2) := by
    rw [hdrop]
    simp only [cardioBits]
    rw [htab]
    simp [hex, List.append_assoc]
  obtain ⟨e1, h1⟩ := unpack_step hbits (show k < 2 ^ 3 by omega)
  obtain ⟨e2, h2⟩ := unpack_step h1 (show 1 < 2 ^ 1 by omega)
  refine ⟨?_, h2⟩
  unfold readCardio
  rw [if_pos rfl]
  simp only [e1, e2, hrev]
  simp

theorem readCardio_val (bits L2 : List ℕ) (pos k n : ℕ) (cc : ComponentIn)
    (htab : CARDIO_EXERCISES cc.exercise = some k)
    (hex : cc.exempt = false) (hn : cc.value = (n : ℚ)) (hnlt : n < 4096)
    (hdrop : bits.drop pos = cardioBits (some cc) ++ L2) :
    readCardio ⟨bits, pos⟩ true =
      (some { exercise := cc.exercise, value := some n, exempt := false },
        ⟨bits, pos + 3 + 1 + 12⟩) ∧
      bits.drop (pos + 3 + 1 + 12) = L2 := by
  obtain ⟨hk, hrev⟩ := cardio_table_rev htab
  have hbits : bits.drop pos = packBits k 3 ++ (packBits 0 1 ++ (packBits n 12 ++ L2)) := by
    rw [hdrop]
    simp only [cardioBits]
    rw [htab, hn]
    simp [hex, jsRound_natCast, List.append_assoc]
  obtain ⟨e1, h1⟩ := unpack_step hbits (show k < 2 ^ 3 by omega)
  obtain ⟨e2, h2⟩ := unpack_step h1 (show 0 < 2 ^ 1 by omega)
  obtain ⟨e3, h3⟩ := unpack_step h2 (show n < 2 ^ 12 by omega)
  refine ⟨?_, h3⟩
  unfold readCardio
  rw [if_pos rfl]
  simp only [e1, e2, e3, hrev]
  simp

theorem readStrength_none (u : BitUnpacker) : readStrength u false = (none, u) := by
  simp [readStrength]

theorem readStrength_exempt (bits L2 : List ℕ) (pos k : ℕ) (cc : ComponentIn)
    (htab : STRENGTH_EXERCISES cc.exercise = some k) (hex : cc.exempt = true)
    (hdrop : bits.drop pos = strengthBits (some cc) ++ L2) :
    readStrength ⟨bits, pos⟩ true =
      (some { exercise := cc.exercise, value := none, exempt := true },
        ⟨bits, pos + 2 + 1⟩) ∧
      bits.drop (pos + 2 + 1) = L2 := by
  obtain ⟨hk, hrev⟩ := strength_table_rev htab
  have hbits : bits.drop pos = packBits k 2 ++ (packBits 1 1 ++ L2) := by
    rw [hdrop]
    simp only [strengthBits]
    rw [htab]
    simp [hex, List.append_assoc]
  obtain ⟨e1, h1⟩ := unpack_step hbits (show k < 2 ^ 2 by omega)
  obtain ⟨e2, h2⟩ := unpack_step h1 (show 1 < 2 ^ 1 by omega)
  refine ⟨?_, h2⟩
  unfold readStrength
  rw [if_pos rfl]
  simp only [e1, e2, hrev]
  simp

theorem readStrength_val (bits L2 : List ℕ) (pos k n : ℕ) (cc : ComponentIn)
    (htab : STRENGTH_EXERCISES cc.exercise = some k)
    (hex : cc.exempt = false) (hn : cc.value = (n : ℚ)) (hnlt : n < 128)
    (hdrop : bits.drop pos = strengthBits (some cc) ++ L2) :
    readStrength ⟨bits, pos⟩ true =
      (some { exercise := cc.exercise, value := some n, exempt := false },
        ⟨bits, pos + 2 + 1 + 7⟩) ∧
      bits.drop (pos + 2 + 1 + 7) = L2 := by
  obtain ⟨hk, hrev⟩ := strength_table_rev htab
  have hbits : bits.drop pos = packBits k 2 ++ (packBits 0 1 ++ (packBits n 7 ++ L2)) := by
    rw [hdrop]
    simp only [strengthBits]
    rw [htab, hn]
    simp [hex, jsRound_natCast, List.append_assoc]
  obtain ⟨e1, h1⟩ := unpack_step hbits (show k < 2 ^ 2 by omega)
  obtain ⟨e2, h2⟩ := unpack_step h1 (show 0 < 2 ^ 1 by omega)
  obtain ⟨e3, h3⟩ := unpack_step h2 (show n < 2 ^ 7 by omega)
  refine ⟨?_, h3⟩
  unfold readStrength
  rw [if_pos rfl]
  simp only [e1, e2, e3, hrev]
  simp

theorem readCore_none (u : BitUnpacker) : readCore u false = (none, u) := by
  simp [readCore]

theorem readCore_exempt (bits L2 : List ℕ) (pos k : ℕ) (cc : ComponentIn)
    (htab : CORE_EXERCISES cc.exercise = some k) (hex : cc.exempt = true)
    (hdrop : bits.drop pos = coreBits (some cc) ++ L2) :
    readCore ⟨bits, pos⟩ true =
      (some { exercise := cc.exercise, value := none, exempt := true },
        ⟨bits, pos + 2 + 1⟩) ∧
      bits.drop (pos + 2 + 1) = L2 := by
  obtain ⟨hk, hrev⟩ := core_table_rev htab
  have hbits : bits.drop pos = packBits k 2 ++ (packBits 1 1 ++ L2) := by
    rw [hdrop]
    simp only [coreBits]
    rw [htab]
    simp [hex, List.append_assoc]
  obtain ⟨e1, h1⟩ := unpack_step hbits (show k < 2 ^ 2 by omega)
  obtain ⟨e2, h2⟩ := unpack_step h1 (show 1 < 2 ^ 1 by omega)
  refine ⟨?_, h2⟩
  unfold readCore
  rw [if_pos rfl]
  simp only [e1, e2, hrev]
  simp

theorem readCore_val (bits L2 : List ℕ) (pos k n : ℕ) (cc : ComponentIn)
    (htab : CORE_EXERCISES cc.exercise = some k)
    (hex : cc.exempt = false) (hn : cc.value = (n : ℚ)) (hnlt : n < 4096)
    (hdrop : bits.drop pos = coreBits (some cc) ++ L2) :
    readCore ⟨bits, pos⟩ true =
      (some { exercise := cc.exercise, value := some n, exempt := false },
        ⟨bits, pos + 2 + 1 + 12⟩) ∧
      bits.drop (pos + 2 + 1 + 12) = L2 := by
  obtain ⟨hk, hrev⟩ := core_table_rev htab
  have hbits : bits.drop pos = packBits k 2 ++ (packBits 0 1 ++ (packBits n 12 ++ L2)) := by
    rw [hdrop]
    simp only [coreBits]
    rw [htab, hn]
    simp [hex, jsRound_natCast, List.append_assoc]
  obtain ⟨e1, h1⟩ := unpack_step hbits (show k < 2 ^ 2 by omega)
  obtain ⟨e2, h2⟩ := unpack_step h1 (show 0 < 2 ^ 1 by omega)
  obtain ⟨e3, h3⟩ := unpack_step h2 (show n < 2 ^ 12 by omega)
  refine ⟨?_, h3⟩
  unfold readCore
  rw [if_pos rfl]
  simp only [e1, e2, e3, hrev]
  simp

theorem readBodyComp_none (u : BitUnpacker) : readBodyComp u false = (none, u) := by
  simp [readBodyComp]

theorem readBodyComp_exempt (bits L2 : List ℕ) (pos : ℕ) (cc : BodyCompIn)
    (hex : cc.exempt = true)
    (hdrop : bits.drop pos = bodyCompBits (some cc) ++ L2) :
    readBodyComp ⟨bits, pos⟩ true =
      (some { heightInches := none, waistInches := none, exempt := true },
        ⟨bits, pos + 1⟩) ∧
      bits.drop (pos + 1) = L2 := by
  have hbits : bits.drop pos = packBits 1 1 ++ L2 := by
    rw [hdrop]
    simp only [bodyCompBits]
    simp [hex]
  obtain ⟨e1, h1⟩ := unpack_step hbits (show 1 < 2 ^ 1 by omega)
  refine ⟨?_, h1⟩
  unfold readBodyComp
  rw [if_pos rfl]
  simp only [e1]
  simp

theorem readBodyComp_val (bits L2 : List ℕ) (pos hk wk : ℕ) (cc : BodyCompIn)
    (hex : cc.exempt = false)
    (hh : cc.heightInches = (hk : ℚ) / 10) (hw : cc.waistInches = (wk : ℚ) / 10)
    (hhlt : hk < 2048) (hwlt : wk < 1024)
    (hdrop : bits.drop pos = bodyCompBits (some cc) ++ L2) :
    readBodyComp ⟨bits, pos⟩ true =
      (some { heightInches := some ((hk : ℚ) / 10), waistInches := some ((wk : ℚ) / 10),
              exempt := false },
        ⟨bits, pos + 1 + 11 + 10⟩) ∧
      bits.drop (pos + 1 + 11 + 10) = L2 := by
  have hbits : bits.drop pos = packBits 0 1 ++ (packBits hk 11 ++ (packBits wk 10 ++ L2)) := by
    rw [hdrop]
    simp only [bodyCompBits]
    rw [hh, hw]
    simp [hex, jsRound_tenths, jsRound_natCast, List.append_assoc]
  obtain ⟨e1, h1⟩ := unpack_step hbits (show 0 < 2 ^ 1 by omega)
  obtain ⟨e2, h2⟩ := unpack_step h1 (show hk < 2 ^ 11 by omega)
  obtain ⟨e3, h3⟩ := unpack_step h2 (show wk < 2 ^ 10 by omega)
  refine ⟨?_, h3⟩
  unfold readBodyComp
  rw [if_pos rfl]
  simp only [e1, e2, e3]
  simp

/-- `1`/`0` presence and exemption flags decode back to the Booleans they
    encode. -/
theorem decide_if_one (b : Bool) : decide ((if b then (1 : ℕ) else 0) = 1) = b := by
  cases b <;> simp

theorem if_one_lt (b : Bool) : (if b then (1 : ℕ) else 0) < 2 := by
  cases b <;> simp

/-- Reading a cardio section written from any valid cardio input. -/
theorem readCardio_full (bits L2 : List ℕ) (pos : ℕ) (c : Option ComponentIn)
    (hvalid : ∀ cc ∈ c, (∃ k, CARDIO_EXERCISES cc.exercise = some k) ∧
      (cc.exempt = false → ∃ n : ℕ, n ≤ 2047 ∧ cc.value = (n : ℚ)))
    (hdrop : bits.drop pos = cardioBits c ++ L2) :
    ∃ out pos', readCardio ⟨bits, pos⟩ c.isSome = (out, ⟨bits, pos'⟩) ∧
      bits.drop pos' = L2 ∧
      (c = none → out = none) ∧
      (∀ cc ∈ c, ∃ o, out = some o ∧ o.exercise = cc.exercise ∧ o.exempt = cc.exempt ∧
        (cc.exempt = true → o.value = none) ∧
        (∀ n : ℕ, cc.exempt = false → cc.value = (n : ℚ) → o.value = some n)) := by
  rcases c with - | cc
  · refine ⟨none, pos, ?_, ?_, fun _ => rfl, by simp⟩
    · exact readCardio_none _
    · simpa [cardioBits] using hdrop
  · obtain ⟨⟨k, htab⟩, hval⟩ := hvalid cc rfl
    rcases he : cc.exempt with - | -
    · obtain ⟨n, hn, hv⟩ := hval he
      obtain ⟨e, h2⟩ := readCardio_val bits L2 pos k n cc htab he hv (by omega) hdrop
      refine ⟨_, _, e, h2, by simp, ?_⟩
      intro cc' hcc'
      obtain rfl : cc = cc' := by simpa using hcc'
      refine ⟨_, rfl, rfl, he.symm, by simp [he], ?_⟩
      intro n' _ hv'
      have : (n : ℚ) = (n' : ℚ) := by rw [← hv, hv']
      have : n = n' := Nat.cast_injective this
      simp [this]
    · obtain ⟨e, h2⟩ := readCardio_exempt bits L2 pos k cc htab he hdrop
      refine ⟨_, _, e, h2, by simp, ?_⟩
      intro cc' hcc'
      obtain rfl : cc = cc' := by simpa using hcc'
      exact ⟨_, rfl, rfl, he.symm, fun _ => rfl, fun n hx _ => by rw [hx] at he; cases he⟩

/-- Reading a strength section written from any valid strength input. -/
theorem readStrength_full (bits L2 : List ℕ) (pos : ℕ) (c : Option ComponentIn)
    (hvalid : ∀ cc ∈ c, (∃ k, STRENGTH_EXERCISES cc.exercise = some k) ∧
      (cc.exempt = false → ∃ n : ℕ, n ≤ 127 ∧ cc.value = (n : ℚ)))
    (hdrop : bits.drop pos = strengthBits c ++ L2) :
    ∃ out pos', readStrength ⟨bits, pos⟩ c.isSome = (out, ⟨bits, pos'⟩) ∧
      bits.drop pos' = L2 ∧
      (c = none → out = none) ∧
      (∀ cc ∈ c, ∃ o, out = some o ∧ o.exercise = cc.exercise ∧ o.exempt = cc.exempt ∧
        (cc.exempt = true → o.value = none) ∧
        (∀ n : ℕ, cc.exempt = false → cc.value = (n : ℚ) → o.value = some n)) := by
  rcases c with - | cc
  · refine ⟨none, pos, ?_, ?_, fun _ => rfl, by simp⟩
    · exact readStrength_none _
    · simpa [strengthBits] using hdrop
  · obtain ⟨⟨k, htab⟩, hval⟩ := hvalid cc rfl
    rcases he : cc.exempt with - | -
    · obtain ⟨n, hn, hv⟩ := hval he
      obtain ⟨e, h2⟩ := readStrength_val bits L2 pos k n cc htab he hv (by omega) hdrop
      refine ⟨_, _, e, h2, by simp, ?_⟩
      intro cc' hcc'
      obtain rfl : cc = cc' := by simpa using hcc'
      refine ⟨_, rfl, rfl, he.symm, by simp [he], ?_⟩
      intro n' _ hv'
      have : (n : ℚ) = (n' : ℚ) := by rw [← hv, hv']
      have : n = n' := Nat.cast_injective this
      simp [this]
    · obtain ⟨e, h2⟩ := readStrength_exempt bits L2 pos k cc htab he hdrop
      refine ⟨_, _, e, h2, by simp, ?_⟩
      intro cc' hcc'
      obtain rfl : cc = cc' := by simpa using hcc'
      exact ⟨_, rfl, rfl, he.symm, fun _ => rfl, fun n hx _ => by rw [hx] at he; cases he⟩

/-- Reading a core section written from any valid core input. -/
theorem readCore_full (bits L2 : List ℕ) (pos : ℕ) (c : Option ComponentIn)
    (hvalid : ∀ cc ∈ c, (∃ k, CORE_EXERCISES cc.exercise = some k) ∧
      (cc.exempt = false → ∃ n : ℕ, n ≤ 2047 ∧ cc.value = (n : ℚ)))
    (hdrop : bits.drop pos = coreBits c ++ L2) :
    ∃ out pos', readCore ⟨bits, pos⟩ c.isSome = (out, ⟨bits, pos'⟩) ∧
      bits.drop pos' = L2 ∧
      (c = none → out = none) ∧
      (∀ cc ∈ c, ∃ o, out = some o ∧ o.exercise = cc.exercise ∧ o.exempt = cc.exempt ∧
        (cc.exempt = true → o.value = none) ∧
        (∀ n : ℕ, cc.exempt = false → cc.value = (n : ℚ) → o.value = some n)) := by
  rcases c with - | cc
  · refine ⟨none, pos, ?_, ?_, fun _ => rfl, by simp⟩
    · exact readCore_none _
    · simpa [coreBits] using hdrop
  · obtain ⟨⟨k, htab⟩, hval⟩ := hvalid cc rfl
    rcases he : cc.exempt with - | -
    · obtain ⟨n, hn, hv⟩ := hval he
      obtain ⟨e, h2⟩ := readCore_val bits L2 pos k n cc htab he hv (by omega) hdrop
      refine ⟨_, _, e, h2, by simp, ?_⟩
      intro cc' hcc'
      obtain rfl : cc = cc' := by simpa using hcc'
      refine ⟨_, rfl, rfl, he.symm, by simp [he], ?_⟩
      intro n' _ hv'
      have : (n : ℚ) = (n' : ℚ) := by rw [← hv, hv']
      have : n = n' := Nat.cast_injective this
      simp [this]
    · obtain ⟨e, h2⟩ := readCore_exempt bits L2 pos k cc htab he hdrop
      refine ⟨_, _, e, h2, by simp, ?_⟩
      intro cc' hcc'
      obtain rfl : cc = cc' := by simpa using hcc'
      exact ⟨_, rfl, rfl, he.symm, fun _ => rfl, fun n hx _ => by rw [hx] at he; cases he⟩

/-- Reading a body-composition section written from any valid input. -/
theorem readBodyComp_full (bits L2 : List ℕ) (pos : ℕ) (c : Option BodyCompIn)
    (hvalid : ∀ bc ∈ c, bc.exempt = false →
      ∃ hk wk : ℕ, hk ≤ 2047 ∧ wk ≤ 1023 ∧
        bc.heightInches = (hk : ℚ) / 10 ∧ bc.waistInches = (wk : ℚ) / 10)
    (hdrop : bits.drop pos = bodyCompBits c ++ L2) :
    ∃ out pos', readBodyComp ⟨bits, pos⟩ c.isSome = (out, ⟨bits, pos'⟩) ∧
      bits.drop pos' = L2 ∧
      (c = none → out = none) ∧
      (∀ bc ∈ c, ∃ o, out = some o ∧ o.exempt = bc.exempt ∧
        (bc.exempt = true → o.heightInches = none ∧ o.waistInches = none) ∧
        (bc.exempt = false → o.heightInches = some bc.heightInches ∧
          o.waistInches = some bc.waistInches)) := by
  rcases c with - | bc
  · refine ⟨none, pos, ?_, ?_, fun _ => rfl, by simp⟩
    · exact readBodyComp_none _
    · simpa [bodyCompBits] using hdrop
  · rcases he : bc.exempt with - | -
    · obtain ⟨hk, wk, hk1, wk1, hh, hw⟩ := hvalid bc rfl he
      obtain ⟨e, h2⟩ := readBodyComp_val bits L2 pos hk wk bc he hh hw (by omega)
        (by omega) hdrop
      refine ⟨_, _, e, h2, by simp, ?_⟩
      intro bc' hbc'
      have hbe : bc = bc' := by simpa using hbc'
      cases hbe
      refine ⟨_, rfl, he.symm, ?_, ?_⟩
      · rw [he]
        intro hx
        exact Bool.noConfusion hx
      · intro _
        rw [hh, hw]
        exact ⟨rfl, rfl⟩
    · obtain ⟨e, h2⟩ := readBodyComp_exempt bits L2 pos bc he hdrop
      refine ⟨_, _, e, h2, by simp, ?_⟩
      intro bc' hbc'
      have hbe : bc = bc' := by simpa using hbc'
      cases hbe
      refine ⟨_, rfl, he.symm, fun _ => ⟨rfl, rfl⟩, ?_⟩
      rw [he]
      intro hx
      exact Bool.noConfusion hx

/-- The guards of `decodeSCode` on a prefixed, decodable, verified
    token. -/
theorem decodeSCode_eval (s : List Char) (bytes : List ℕ)
    (hdec : decodeBase64url s = some bytes) (hver : verifyCrc8 bytes = true) :
    decodeSCode (PREFIX_TAG ++ s) = unpackAssessment bytes.dropLast := by
  unfold decodeSCode
  rw [if_neg (fun hc => hc (isPrefixOf_append _ _)), List.drop_left]
  simp only [hdec]
  rw [if_neg (by simp [hver])]

theorem bitsToBytes_length : ∀ l : List ℕ, (bitsToBytes l).length = l.length / 8
  | [] => by simp [bitsToBytes]
  | [_] => by simp [bitsToBytes]
  | [_, _] => by simp [bitsToBytes]
  | [_, _, _] => by simp [bitsToBytes]
  | [_, _, _, _] => by simp [bitsToBytes]
  | [_, _, _, _, _] => by simp [bitsToBytes]
  | [_, _, _, _, _, _] => by simp [bitsToBytes]
  | [_, _, _, _, _, _, _] => by simp [bitsToBytes]
  | b0 :: b1 :: b2 :: b3 :: b4 :: b5 :: b6 :: b7 :: rest => by
    simp only [bitsToBytes, List.length_cons, bitsToBytes_length rest]
    omega

theorem sBits_length_ge (f : ℤ → Bool) (date : ℤ) (a : AssessmentIn) :
    29 ≤ (sBits f date a).length := by
  unfold sBits
  simp only [List.length_append, packBits_length]
  omega

/-- **C1.** For every assessment whose date, component values, exercise
    names, height and waist lie within their field ranges, encoding
    succeeds and decoding the token reproduces: the date to day
    granularity, the diagnostic flag, each present component's exercise
    name, exempt flag and (integer) value exactly, body composition's
    height and waist (one-decimal values) exactly, and each absent
    component as absent. -/
theorem C1_scode_roundtrip (f : ℤ → Bool) (a : AssessmentIn) (date : ℤ)
    (hdate : a.date = some date)
    (hd0 : 0 ≤ dateToDays date) (hd1 : dateToDays date ≤ 65535)
    (hc : ∀ cc ∈ a.cardio, (∃ k, CARDIO_EXERCISES cc.exercise = some k) ∧
      (cc.exempt = false → ∃ n : ℕ, n ≤ 2047 ∧ cc.value = (n : ℚ)))
    (hs : ∀ cc ∈ a.strength, (∃ k, STRENGTH_EXERCISES cc.exercise = some k) ∧
      (cc.exempt = false → ∃ n : ℕ, n ≤ 127 ∧ cc.value = (n : ℚ)))
    (hco : ∀ cc ∈ a.core, (∃ k, CORE_EXERCISES cc.exercise = some k) ∧
      (cc.exempt = false → ∃ n : ℕ, n ≤ 2047 ∧ cc.value = (n : ℚ)))
    (hb : ∀ bc ∈ a.bodyComp, bc.exempt = false →
      ∃ hk wk : ℕ, hk ≤ 2047 ∧ wk ≤ 1023 ∧
        bc.heightInches = (hk : ℚ) / 10 ∧ bc.waistInches = (wk : ℚ) / 10) :
    ∃ t r, encodeSCode f a = .ok t ∧ decodeSCode t = .ok r ∧
      r.date = daysToDate (dateToDays date) ∧
      r.isDiagnostic = f date ∧
      (a.cardio = none → r.cardio = none) ∧
      (∀ cc ∈ a.cardio, ∃ o, r.cardio = some o ∧ o.exercise = cc.exercise ∧
        o.exempt = cc.exempt ∧ (cc.exempt = true → o.value = none) ∧
        (∀ n : ℕ, cc.exempt = false → cc.value = (n : ℚ) → o.value = some n)) ∧
      (a.strength = none → r.strength = none) ∧
      (∀ cc ∈ a.strength, ∃ o, r.strength = some o ∧ o.exercise = cc.exercise ∧
        o.exempt = cc.exempt ∧ (cc.exempt = true → o.value = none) ∧
        (∀ n : ℕ, cc.exempt = false → cc.value = (n : ℚ) → o.value = some n)) ∧
      (a.core = none → r.core = none) ∧
      (∀ cc ∈ a.core, ∃ o, r.core = some o ∧ o.exercise = cc.exercise ∧
        o.exempt = cc.exempt ∧ (cc.exempt = true → o.value = none) ∧
        (∀ n : ℕ, cc.exempt = false → cc.value = (n : ℚ) → o.value = some n)) ∧
      (a.bodyComp = none → r.bodyComp = none) ∧
      (∀ bc ∈ a.bodyComp, ∃ o, r.bodyComp = some o ∧ o.exempt = bc.exempt ∧
        (bc.exempt = true → o.heightInches = none ∧ o.waistInches = none) ∧
        (bc.exempt = false → o.heightInches = some bc.heightInches ∧
          o.waistInches = some bc.waistInches)) := by
  have henc := encodeSCode_eq f a date hdate
  have hblt : ∀ b ∈ sBits f date a, b < 2 := sBits_lt f date a
  have hbytes_lt : ∀ x ∈ (BitPacker.mk (sBits f date a)).getBytes, x < 256 :=
    getBytes_bytes_lt ⟨sBits f date a⟩ hblt
  have hall : ∀ x ∈ (BitPacker.mk (sBits f date a)).getBytes ++
      [crc8 (BitPacker.mk (sBits f date a)).getBytes], x < 256 := by
    intro x hx
    rcases List.mem_append.mp hx with hx | hx
    · exact hbytes_lt x hx
    · simp only [List.mem_singleton] at hx
      subst hx
      exact crc8_lt _
  have hbne : (BitPacker.mk (sBits f date a)).getBytes ≠ [] := by
    intro hcon
    have h1 := bitsToBytes_length (sBits f date a ++
      List.replicate ((8 - (sBits f date a).length % 8) % 8) 0)
    have h2 := sBits_length_ge f date a
    rw [show bitsToBytes (sBits f date a ++
        List.replicate ((8 - (sBits f date a).length % 8) % 8) 0) =
      (BitPacker.mk (sBits f date a)).getBytes from rfl, hcon] at h1
    simp only [List.length_nil, List.length_append, List.length_replicate] at h1
    omega
  have hdecb := decodeBase64url_encodeBase64url _ hall
  have hverb := verifyCrc8_append _ hbne
  have hdecode := decodeSCode_eval _ _ hdecb hverb
  rw [List.dropLast_concat] at hdecode
  have hofB := ofBytes_getBytes ⟨sBits f date a⟩ hblt
  -- step through the header fields
  have h0 : (sBits f date a ++
      List.replicate ((8 - (sBits f date a).length % 8) % 8) 0).drop 0 =
      packBits SCHEMA_VERSION 4 ++ (packBits CHART_VERSION 4 ++
      (packBits (dateToDays date).toNat 16 ++
      (packBits (if f date then 1 else 0) 1 ++
      (packBits (if a.cardio.isSome then 1 else 0) 1 ++
      (packBits (if a.strength.isSome then 1 else 0) 1 ++
      (packBits (if a.core.isSome then 1 else 0) 1 ++
      (packBits (if a.bodyComp.isSome then 1 else 0) 1 ++
      (cardioBits a.cardio ++ (strengthBits a.strength ++ (coreBits a.core ++
      (bodyCompBits a.bodyComp ++
        List.replicate ((8 - (sBits f date a).length % 8) % 8) 0))))))))))) := by
    rw [List.drop_zero]
    simp only [sBits, List.append_assoc]
  obtain ⟨e1, h1⟩ := unpack_step h0 (by decide)
  obtain ⟨e2, h2⟩ := unpack_step h1 (by decide)
  obtain ⟨e3, h3⟩ := unpack_step h2 (show (dateToDays date).toNat < 2 ^ 16 by omega)
  obtain ⟨e4, h4⟩ := unpack_step h3 (if_one_lt _)
  obtain ⟨e5, h5⟩ := unpack_step h4 (if_one_lt _)
  obtain ⟨e6, h6⟩ := unpack_step h5 (if_one_lt _)
  obtain ⟨e7, h7⟩ := unpack_step h6 (if_one_lt _)
  obtain ⟨e8, h8⟩ := unpack_step h7 (if_one_lt _)
  obtain ⟨oc, posc, ec, hc2, hcnone, hcsome⟩ := readCardio_full _ _ _ a.cardio hc h8
  obtain ⟨os, poss, es, hs2, hsnone, hssome⟩ := readStrength_full _ _ _ a.strength hs hc2
  obtain ⟨oco, posk, ek, hk2, hknone, hksome⟩ := readCore_full _ _ _ a.core hco hs2
  obtain ⟨ob, posb, eb, hb2, hbnone, hbsome⟩ := readBodyComp_full _ _ _ a.bodyComp hb hk2
  have hmain : unpackAssessment (BitPacker.mk (sBits f date a)).getBytes =
      .ok { date := daysToDate ((dateToDays date).toNat : ℤ),
            isDiagnostic := f date,
            schemaVersion := SCHEMA_VERSION,
            chartVersion := CHART_VERSION,
            cardio := oc, strength := os, core := oco, bodyComp := ob } := by
    unfold unpackAssessment
    rw [hofB]
    simp only [e1, e2, e3, e4]
    rw [if_neg (lt_irrefl SCHEMA_VERSION)]
    unfold readAssessmentBody
    simp only [e5, e6, e7, e8, decide_if_one, ec, es, ek, eb]
  refine ⟨_, _, henc, by rw [hdecode, hmain], ?_, rfl, hcnone, ?_, hsnone, ?_,
    hknone, ?_, hbnone, hbsome⟩
  · show daysToDate ((dateToDays date).toNat : ℤ) = daysToDate (dateToDays date)
    rw [Int.toNat_of_nonneg hd0]
  · exact hcsome
  · exact hssome
  · exact hksome

end SCode

/-- Witness for C5: a concrete demographics record (dob = epoch day 7305,
    i.e. 1970-01-01). -/
theorem C5_witness :
    ∃ t, DCode.encodeDCode ⟨some 0, some Gender.FEMALE⟩ = .ok t ∧
      DCode.decodeDCode t = .ok { dob := DCode.daysToDate (DCode.dateToDaysSinceEpoch 0),
                                  gender := Gender.FEMALE,
                                  schemaVersion := 1 } :=
  DCode.C5_dcode_roundtrip 0 Gender.FEMALE (by decide) (by decide)

/-- The spec §8 example vector: 2025-09-15 (ms timestamp 1757894400000),
    2-mile run 1111, pushups 45, situps 48, height 72.0", waist 36.0". -/
def exampleAssessment : SCode.AssessmentIn :=
  { date := some 1757894400000,
    cardio := some { exercise := "2mile_run", value := 1111, exempt := false },
    strength := some { exercise := "pushups", value := 45, exempt := false },
    core := some { exercise := "situps", value := 48, exempt := false },
    bodyComp := some { heightInches := 72, waistInches := 36, exempt := false } }

/-- Witness for C1: the spec §8 example vector satisfies all range
    hypotheses, and its token decodes back to the same components. -/
theorem C1_witness :
    exampleAssessment.date = some 1757894400000 ∧
    0 ≤ SCode.dateToDays 1757894400000 ∧
    SCode.dateToDays 1757894400000 ≤ 65535 ∧
    ∃ t r, SCode.encodeSCode (fun _ => false) exampleAssessment = .ok t ∧
      SCode.decodeSCode t = .ok r ∧
      r.date = SCode.daysToDate (SCode.dateToDays 1757894400000) ∧
      r.isDiagnostic = false ∧
      (∃ o, r.cardio = some o ∧ o.exercise = "2mile_run" ∧ o.exempt = false ∧
        o.value = some 1111) ∧
      (∃ o, r.strength = some o ∧ o.exercise = "pushups" ∧ o.exempt = false ∧
        o.value = some 45) ∧
      (∃ o, r.core = some o ∧ o.exercise = "situps" ∧ o.exempt = false ∧
        o.value = some 48) ∧
      (∃ o, r.bodyComp = some o ∧ o.exempt = false ∧
        o.heightInches = some 72 ∧ o.waistInches = some 36) := by
  have hc : ∀ cc ∈ exampleAssessment.cardio,
      (∃ k, CARDIO_EXERCISES cc.exercise = some k) ∧
      (cc.exempt = false → ∃ n : ℕ, n ≤ 2047 ∧ cc.value = (n : ℚ)) := by
    intro cc hcc
    simp only [exampleAssessment, Option.mem_def, Option.some.injEq] at hcc
    subst hcc
    exact ⟨⟨0, by decide⟩, fun _ => ⟨1111, by norm_num, by norm_num⟩⟩
  have hs : ∀ cc ∈ exampleAssessment.strength,
      (∃ k, STRENGTH_EXERCISES cc.exercise = some k) ∧
      (cc.exempt = false → ∃ n : ℕ, n ≤ 127 ∧ cc.value = (n : ℚ)) := by
    intro cc hcc
    simp only [exampleAssessment, Option.mem_def, Option.some.injEq] at hcc
    subst hcc
    exact ⟨⟨0, by decide⟩, fun _ => ⟨45, by norm_num, by norm_num⟩⟩
  have hco : ∀ cc ∈ exampleAssessment.core,
      (∃ k, CORE_EXERCISES cc.exercise = some k) ∧
      (cc.exempt = false → ∃ n : ℕ, n ≤ 2047 ∧ cc.value = (n : ℚ)) := by
    intro cc hcc
    simp only [exampleAssessment, Option.mem_def, Option.some.injEq] at hcc
    subst hcc
    exact ⟨⟨0, by decide⟩, fun _ => ⟨48, by norm_num, by norm_num⟩⟩
  have hb : ∀ bc ∈ exampleAssessment.bodyComp, bc.exempt = false →
      ∃ hk wk : ℕ, hk ≤ 2047 ∧ wk ≤ 1023 ∧
        bc.heightInches = (hk : ℚ) / 10 ∧ bc.waistInches = (wk : ℚ) / 10 := by
    intro bc hbc _
    simp only [exampleAssessment, Option.mem_def, Option.some.injEq] at hbc
    subst hbc
    exact ⟨720, 360, by norm_num, by norm_num, by norm_num, by norm_num⟩
  refine ⟨rfl, by decide, by decide, ?_⟩
  obtain ⟨t, r, h1, h2, h3, h4, _, hcs, _, hss, _, hks, _, hbs⟩ :=
    SCode.C1_scode_roundtrip (fun _ => false) exampleAssessment 1757894400000 rfl
      (by decide) (by decide) hc hs hco hb
  obtain ⟨oc, hoc, hoce, hocx, _, hocv⟩ :=
    hcs { exercise := "2mile_run", value := 1111, exempt := false } rfl
  obtain ⟨os, hos, hose, hosx, _, hosv⟩ :=
    hss { exercise := "pushups", value := 45, exempt := false } rfl
  obtain ⟨ok_, hok, hoke, hokx, _, hokv⟩ :=
    hks { exercise := "situps", value := 48, exempt := false } rfl
  obtain ⟨ob, hob, hobx, _, hobv⟩ :=
    hbs { heightInches := 72, waistInches := 36, exempt := false } rfl
  exact ⟨t, r, h1, h2, h3, h4,
    ⟨oc, hoc, hoce, hocx, hocv 1111 rfl (by norm_num)⟩,
    ⟨os, hos, hose, hosx, hosv 45 rfl (by norm_num)⟩,
    ⟨ok_, hok, hoke, hokx, hokv 48 rfl (by norm_num)⟩,
    ⟨ob, hob, hobx, (hobv rfl).1, (hobv rfl).2⟩⟩

/-- The bit stream `encodeSCode` produces for the C2 input (date = epoch
    day 7305 = the Unix epoch, cardio `2mile_run` value 5000, not exempt):
    the 12-bit cardio value field holds 5000 mod 4096 = 904. -/
def c2Bits : List ℕ :=
  packBits 2 4 ++ packBits 0 4 ++ packBits 7305 16 ++
  packBits 0 1 ++ packBits 1 1 ++ packBits 0 1 ++
  packBits 0 1 ++ packBits 0 1 ++
  packBits 0 3 ++ packBits 0 1 ++ packBits 904 12

set_option maxRecDepth 10000 in
/-- Counterexample to C2: encoding a cardio value of 5000 (above the
    field's maximum) and decoding yields 904 = 5000 mod 2^12 — the value
    wraps, it is not clamped to 2047. -/
theorem C2_counterexample :
    ∃ t r o, SCode.encodeSCode (fun _ => false)
        { date := some 0,
          cardio := some { exercise := "2mile_run", value := 5000, exempt := false } } =
      .ok t ∧
      SCode.decodeSCode t = .ok r ∧ r.cardio = some o ∧
      o.value = some 904 ∧ o.value ≠ some 2047 := by
  have hjr : (jsRound (5000 : ℚ)).toNat = 5000 := by
    rw [show (5000 : ℚ) = ((5000 : ℕ) : ℚ) by norm_num, jsRound_natCast]
    rfl
  have hsb : SCode.sBits (fun _ => false) 0
      { date := some 0,
        cardio := some { exercise := "2mile_run", value := 5000, exempt := false } } =
      c2Bits := by
    simp only [SCode.sBits, SCode.cardioBits, SCode.strengthBits, SCode.coreBits,
      SCode.bodyCompBits]
    simp only [hjr]
    decide
  have henc := SCode.encodeSCode_eq (fun _ => false)
    { date := some 0,
      cardio := some { exercise := "2mile_run", value := 5000, exempt := false } } 0 rfl
  rw [hsb] at henc
  have hblt : ∀ b ∈ c2Bits, b < 2 := by decide
  have hbytes_lt : ∀ x ∈ (BitPacker.mk c2Bits).getBytes, x < 256 :=
    getBytes_bytes_lt ⟨c2Bits⟩ hblt
  have hall : ∀ x ∈ (BitPacker.mk c2Bits).getBytes ++
      [crc8 (BitPacker.mk c2Bits).getBytes], x < 256 := by
    intro x hx
    rcases List.mem_append.mp hx with hx | hx
    · exact hbytes_lt x hx
    · simp only [List.mem_singleton] at hx
      subst hx
      exact crc8_lt _
  have hbne : (BitPacker.mk c2Bits).getBytes ≠ [] := by
    intro hcon
    have h1 := SCode.bitsToBytes_length (c2Bits ++
      List.replicate ((8 - c2Bits.length % 8) % 8) 0)
    rw [show bitsToBytes (c2Bits ++ List.replicate ((8 - c2Bits.length % 8) % 8) 0) =
      (BitPacker.mk c2Bits).getBytes from rfl, hcon] at h1
    simp only [List.length_nil, List.length_append, List.length_replicate] at h1
    have h2 : c2Bits.length = 45 := by decide
    omega
  have hdecb := decodeBase64url_encodeBase64url _ hall
  have hverb := verifyCrc8_append _ hbne
  have hdecode := SCode.decodeSCode_eval _ _ hdecb hverb
  rw [List.dropLast_concat] at hdecode
  have hofB := ofBytes_getBytes ⟨c2Bits⟩ hblt
  have hm : SCode.unpackAssessment (BitPacker.mk c2Bits).getBytes =
      .ok { date := 0, isDiagnostic := false, schemaVersion := 2, chartVersion := 0,
            cardio := some { exercise := "2mile_run", value := some 904, exempt := false },
            strength := none, core := none, bodyComp := none } := by
    unfold SCode.unpackAssessment
    rw [hofB]
    decide
  exact ⟨_, _, _, henc, by rw [hdecode, hm], rfl, rfl, by decide⟩

/-- `mapM` over the alphabet lookup fails as soon as one character is
    outside the (standard) base64 alphabet. -/
theorem mapM_b64CharIndex_none :
    ∀ l : List Char, (∃ c ∈ l, b64CharIndex c = none) → l.mapM b64CharIndex = none := by
  intro l
  induction l with
  | nil =>
    rintro ⟨c, hc, -⟩
    cases hc
  | cons a t ih =>
    rintro ⟨c, hc, hnone⟩
    rcases List.mem_cons.mp hc with rfl | hmem
    · rw [List.mapM_cons, hnone]
      rfl
    · rw [List.mapM_cons, ih ⟨c, hmem, hnone⟩]
      cases b64CharIndex a <;> rfl

/-- An element other than the last one survives `dropLast`. -/
theorem mem_dropLast_of_ne : ∀ {l : List Char} {c y : Char},
    c ∈ l → l.getLast? = some y → c ≠ y → c ∈ l.dropLast := by
  intro l
  induction l with
  | nil =>
    intro c y h
    cases h
  | cons a t ih =>
    intro c y hm hl hne
    cases t with
    | nil =>
      obtain rfl := List.mem_singleton.mp hm
      simp only [List.getLast?_singleton] at hl
      exact absurd (Option.some.inj hl) hne
    | cons b t2 =>
      have hl2 : (b :: t2).getLast? = some y := by
        rw [List.getLast?_cons_cons] at hl
        exact hl
      rw [List.dropLast_cons₂]
      rcases List.mem_cons.mp hm with rfl | hm2
      · exact List.mem_cons_self _ _
      · exact List.mem_cons_of_mem _ (ih hm2 hl2 hne)

/-- A non-`'='` character survives the forgiving-base64 padding strip. -/
theorem mem_stripBase64Pad {c : Char} {cs : List Char} (hmem : c ∈ cs)
    (hne : c ≠ '=') : c ∈ stripBase64Pad cs := by
  by_cases h1 : cs.length % 4 = 0
  · by_cases h2 : cs.getLast? = some '='
    · have hd1 : c ∈ cs.dropLast := mem_dropLast_of_ne hmem h2 hne
      by_cases h3 : cs.dropLast.getLast? = some '='
      · have hd2 := mem_dropLast_of_ne hd1 h3 hne
        simp only [stripBase64Pad, if_pos h1, if_pos h2, if_pos h3]
        exact hd2
      · simp only [stripBase64Pad, if_pos h1, if_pos h2, if_neg h3]
        exact hd1
    · simp only [stripBase64Pad, if_pos h1, if_neg h2]
      exact hmem
  · simp only [stripBase64Pad, if_neg h1]
    exact hmem

/-- `atob` fails whenever its input holds a non-alphabet, non-padding,
    non-whitespace character. -/
theorem atob_none_of_bad {cs : List Char} {c : Char} (hmem : c ∈ cs)
    (hnone : b64CharIndex c = none) (hne : c ≠ '=')
    (hws : isAsciiWs c = false) : atob cs = none := by
  have hmemf : c ∈ cs.filter (fun x => !isAsciiWs x) := by
    apply List.mem_filter.mpr
    refine ⟨hmem, ?_⟩
    rw [hws]
    rfl
  have hstrip := mem_stripBase64Pad hmemf hne
  simp only [atob]
  by_cases h1 : (stripBase64Pad (cs.filter (fun x => !isAsciiWs x))).length % 4 = 1
  · rw [if_pos h1]
  · rw [if_neg h1, mapM_b64CharIndex_none _ ⟨c, hstrip, hnone⟩]
    rfl

/-- `decodeBase64url` fails whenever the input holds a character that is
    invalid even after the `-`/`_` rewrites (and is neither `=` nor ASCII
    whitespace). -/
theorem decodeBase64url_none_of_bad {s : List Char} {c : Char} (hmem : c ∈ s)
    (hnone : b64CharIndex (if c = '-' then '+' else if c = '_' then '/' else c) = none)
    (hne : c ≠ '=') (hws : isAsciiWs c = false) : decodeBase64url s = none := by
  have h1 : (if c = '-' then '+' else c) ∈
      s.map (fun x => if x = '-' then '+' else x) :=
    List.mem_map_of_mem _ hmem
  have h2 : (if (if c = '-' then '+' else c) = '_' then '/'
        else (if c = '-' then '+' else c)) ∈
      (s.map (fun x => if x = '-' then '+' else x)).map
        (fun x => if x = '_' then '/' else x) :=
    List.mem_map_of_mem _ h1
  have hcc : (if (if c = '-' then '+' else c) = '_' then '/'
        else (if c = '-' then '+' else c)) =
      (if c = '-' then '+' else if c = '_' then '/' else c) := by
    by_cases hd : c = '-'
    · subst hd
      decide
    · by_cases hu : c = '_'
      · subst hu
        decide
      · simp [hd, hu]
  rw [hcc] at h2
  have hne2 : (if c = '-' then '+' else if c = '_' then '/' else c) ≠ '=' := by
    by_cases hd : c = '-'
    · subst hd
      decide
    · by_cases hu : c = '_'
      · subst hu
        decide
      · simpa [hd, hu] using hne
  have hws2 : isAsciiWs (if c = '-' then '+' else if c = '_' then '/' else c) = false := by
    by_cases hd : c = '-'
    · subst hd
      decide
    · by_cases hu : c = '_'
      · subst hu
        decide
      · simpa [hd, hu] using hws
  simp only [decodeBase64url]
  exact atob_none_of_bad (List.mem_append_left _ h2) hnone hne2 hws2

/-- A token not starting with `S2-` is rejected before anything else. -/
theorem decodeSCode_badTag (t : List Char) (h : ¬ SCode.PREFIX_TAG.isPrefixOf t) :
    SCode.decodeSCode t = .error .badPrefix := by
  unfold SCode.decodeSCode
  rw [if_pos h]

/-- A token not starting with `D1-` is rejected before anything else. -/
theorem decodeDCode_badTag (t : List Char) (h : ¬ DCode.PREFIX_TAG.isPrefixOf t) :
    DCode.decodeDCode t = .error .badPrefix := by
  unfold DCode.decodeDCode
  rw [if_pos h]

/-- A payload that fails base64url decoding yields the base64 error. -/
theorem decodeSCode_b64fail (s : List Char) (h : decodeBase64url s = none) :
    SCode.decodeSCode (SCode.PREFIX_TAG ++ s) = .error .base64Failed := by
  unfold SCode.decodeSCode
  rw [if_neg (fun hc => hc (isPrefixOf_append _ _)), List.drop_left]
  simp only [h]

/-- A payload that fails base64url decoding yields the base64 error. -/
theorem decodeDCode_b64fail (s : List Char) (h : decodeBase64url s = none) :
    DCode.decodeDCode (DCode.PREFIX_TAG ++ s) = .error .base64Failed := by
  unfold DCode.decodeDCode
  rw [if_neg (fun hc => hc (isPrefixOf_append _ _)), List.drop_left]
  simp only [h]

/-- A payload whose bytes fail CRC verification yields the checksum
    error. -/
theorem decodeSCode_crcFail (s : List Char) (bytes : List ℕ)
    (hdec : decodeBase64url s = some bytes) (hver : verifyCrc8 bytes = false) :
    SCode.decodeSCode (SCode.PREFIX_TAG ++ s) = .error .checksumMismatch := by
  unfold SCode.decodeSCode
  rw [if_neg (fun hc => hc (isPrefixOf_append _ _)), List.drop_left]
  simp only [hdec]
  rw [if_pos (by simp [hver])]

/-- A payload whose bytes fail CRC verification yields the checksum
    error. -/
theorem decodeDCode_crcFail (s : List Char) (bytes : List ℕ)
    (hdec : decodeBase64url s = some bytes) (hver : verifyCrc8 bytes = false) :
    DCode.decodeDCode (DCode.PREFIX_TAG ++ s) = .error .checksumMismatch := by
  unfold DCode.decodeDCode
  rw [if_neg (fun hc => hc (isPrefixOf_append _ _)), List.drop_left]
  simp only [hdec]
  rw [if_pos (by simp [hver])]

set_option maxRecDepth 10000 in
/-- Counterexample to C8: on the valid token `D1-GORIGw`, mutating the
    trailing character to `x` (another base64url character) does not fail
    with the integrity error — it decodes successfully, to the very same
    record (the change lands in discarded spare bits); inserting `+`, a
    character outside the base64url alphabet, fails with the checksum
    error, not the base64 decode error; and inserting spaces (also outside
    the base64url alphabet) does not fail at all — `atob` removes ASCII
    whitespace, so `D1-GO RI Gw` decodes to the original record. -/
theorem C8_counterexample :
    (∀ i, i < 64 → b64UrlChar i ≠ '+' ∧ b64UrlChar i ≠ ' ') ∧
    DCode.decodeDCode ('D' :: '1' :: '-' :: "GORIGw".data) =
      .ok { dob := 0, gender := Gender.FEMALE, schemaVersion := 1 } ∧
    DCode.decodeDCode ('D' :: '1' :: '-' :: "GORIGx".data) =
      .ok { dob := 0, gender := Gender.FEMALE, schemaVersion := 1 } ∧
    DCode.decodeDCode ('D' :: '1' :: '-' :: "+GORIGw".data) =
      .error .checksumMismatch ∧
    DCode.decodeDCode ('D' :: '1' :: '-' :: "GO RI Gw".data) =
      .ok { dob := 0, gender := Gender.FEMALE, schemaVersion := 1 } := by
  exact ⟨by decide, by decide, by decide, by decide, by decide⟩

/-- **C8** (amended): tampering outcomes as implemented — a wrong prefix
    fails with the format error; an inserted character that is invalid
    even as standard base64 (after the `-`/`_` rewrites) and is neither
    `=` nor ASCII whitespace fails with the base64 decode error; and a
    payload whose bytes fail CRC verification fails with the checksum
    error.  (A mutated trailing character is *not* always caught: if it
    only changes the discarded spare bits of the last base64 chunk the
    token decodes identically; an inserted `+` or `/` is consumed by the
    standard-base64 `atob`, surfacing as a checksum mismatch instead of a
    base64 failure; and inserted ASCII whitespace is removed by `atob`
    entirely, so it is not even detected.) -/
theorem C8_tamper :
    (∀ t, ¬ SCode.PREFIX_TAG.isPrefixOf t →
      SCode.decodeSCode t = .error .badPrefix) ∧
    (∀ t, ¬ DCode.PREFIX_TAG.isPrefixOf t →
      DCode.decodeDCode t = .error .badPrefix) ∧
    (∀ (s : List Char) (c : Char), c ∈ s →
      b64CharIndex (if c = '-' then '+' else if c = '_' then '/' else c) = none →
      c ≠ '=' → isAsciiWs c = false →
      SCode.decodeSCode (SCode.PREFIX_TAG ++ s) = .error .base64Failed ∧
      DCode.decodeDCode (DCode.PREFIX_TAG ++ s) = .error .base64Failed) ∧
    (∀ (s : List Char) (bytes : List ℕ), decodeBase64url s = some bytes →
      verifyCrc8 bytes = false →
      SCode.decodeSCode (SCode.PREFIX_TAG ++ s) = .error .checksumMismatch ∧
      DCode.decodeDCode (DCode.PREFIX_TAG ++ s) = .error .checksumMismatch) := by
  refine ⟨decodeSCode_badTag, decodeDCode_badTag, ?_, ?_⟩
  · intro s c hmem hnone hne hws
    exact ⟨decodeSCode_b64fail s (decodeBase64url_none_of_bad hmem hnone hne hws),
      decodeDCode_b64fail s (decodeBase64url_none_of_bad hmem hnone hne hws)⟩
  · intro s bytes hdec hver
    exact ⟨decodeSCode_crcFail s bytes hdec hver, decodeDCode_crcFail s bytes hdec hver⟩

set_option maxRecDepth 10000 in
/-- Witness for C8: a wrong prefix, an inserted `!` (invalid even as
    standard base64), and a corrupted CRC byte, each on concrete
    tokens. -/
theorem C8_tamper_witness :
    (¬ SCode.PREFIX_TAG.isPrefixOf ['X']) ∧
    SCode.decodeSCode ['X'] = .error .badPrefix ∧
    (¬ DCode.PREFIX_TAG.isPrefixOf ['X']) ∧
    DCode.decodeDCode ['X'] = .error .badPrefix ∧
    '!' ∈ '!' :: "GORIGw".data ∧
    b64CharIndex '!' = none ∧
    isAsciiWs '!' = false ∧
    DCode.decodeDCode (DCode.PREFIX_TAG ++ ('!' :: "GORIGw".data)) =
      .error .base64Failed ∧
    decodeBase64url "+GORIGw".data = some [0xf8, 0x63, 0x91, 0x20, 0x6c] ∧
    verifyCrc8 [0xf8, 0x63, 0x91, 0x20, 0x6c] = false ∧
    DCode.decodeDCode (DCode.PREFIX_TAG ++ "+GORIGw".data) =
      .error .checksumMismatch := by
  obtain ⟨h1, h2, h3, h4⟩ := C8_tamper
  exact ⟨by decide, h1 ['X'] (by decide), by decide, h2 ['X'] (by decide),
    by decide, by decide, by decide,
    (h3 ('!' :: "GORIGw".data) '!' (by decide) (by decide) (by decide) (by decide)).2,
    by decide, by decide,
    (h4 "+GORIGw".data [0xf8, 0x63, 0x91, 0x20, 0x6c] (by decide) (by decide)).2⟩

set_option maxRecDepth 10000 in
/-- Counterexample to C9: a well-formed legacy-style token — prefix
    `S1-`, a valid base64url payload whose trailing byte is a valid CRC
    over the textual record `{}` — is *not* decoded by `decodeSCode`; it
    is rejected as a bad prefix.  There is no legacy decode path. -/
theorem C9_counterexample :
    verifyCrc8 ([123, 125] ++ [crc8 [123, 125]]) = true ∧
    decodeBase64url (encodeBase64url ([123, 125] ++ [crc8 [123, 125]])) =
      some ([123, 125] ++ [crc8 [123, 125]]) ∧
    SCode.decodeSCode
        (['S', '1', '-'] ++ encodeBase64url ([123, 125] ++ [crc8 [123, 125]])) =
      .error .badPrefix := by
  exact ⟨by decide, by decide, by decide⟩

/-- **C9** (amended): `decodeSCode` accepts only the `S2-` prefix — every
    token not starting with `S2-` (in particular every legacy `S1-` token,
    however well-formed) is rejected with the format error — while
    `encodeSCode` only ever produces `S2-` tokens. -/
theorem C9_no_legacy :
    (∀ t, ¬ SCode.PREFIX_TAG.isPrefixOf t →
      SCode.decodeSCode t = .error .badPrefix) ∧
    (∀ (f : ℤ → Bool) (a : SCode.AssessmentIn) (t : List Char),
      SCode.encodeSCode f a = .ok t → SCode.PREFIX_TAG.isPrefixOf t) := by
  refine ⟨decodeSCode_badTag, ?_⟩
  intro f a t h
  cases hd : a.date with
  | none =>
    rw [show SCode.encodeSCode f a = .error .missingDate from by
      unfold SCode.encodeSCode
      rw [hd]] at h
    cases h
  | some date =>
    rw [SCode.encodeSCode_eq f a date hd] at h
    obtain rfl := Except.ok.inj h
    exact isPrefixOf_append _ _

set_option maxRecDepth 10000 in
/-- Witness for C9: the `S1-` prefix itself is refused, and a concrete
    encode produces an `S2-`-prefixed token. -/
theorem C9_witness :
    (¬ SCode.PREFIX_TAG.isPrefixOf ('S' :: '1' :: '-' :: [])) ∧
    SCode.decodeSCode ('S' :: '1' :: '-' :: []) = .error .badPrefix ∧
    ∃ t, SCode.encodeSCode (fun _ => false) { date := some 0 } = .ok t ∧
      SCode.PREFIX_TAG.isPrefixOf t := by
  obtain ⟨h1, h2⟩ := C9_no_legacy
  exact ⟨by decide, h1 _ (by decide),
    ⟨_, SCode.encodeSCode_eq (fun _ => false) { date := some 0 } 0 rfl,
      h2 (fun _ => false) { date := some 0 } _
        (SCode.encodeSCode_eq (fun _ => false) { date := some 0 } 0 rfl)⟩⟩

set_option maxRecDepth 10000 in
/-- **C10.** `decodeSCode` never checks the payload length: any
    `S2-`-prefixed token whose payload base64url-decodes and passes CRC
    verification, with a schemaVersion nibble at most 2, decodes to a
    complete record — reads past the buffer end yield zero.  In
    particular the truncated one-data-byte payload `[0x20]` (version 2,
    nothing else) decodes to the epoch date with every component
    absent. -/
theorem C10_no_length_check :
    (∀ (s : List Char) (bytes : List ℕ), decodeBase64url s = some bytes →
      verifyCrc8 bytes = true → bytes.getD 0 0 >>> 4 ≤ 2 →
      ∃ r, SCode.decodeSCode (SCode.PREFIX_TAG ++ s) = .ok r) ∧
    SCode.decodeSCode (SCode.PREFIX_TAG ++ encodeBase64url [32, crc8 [32]]) =
      .ok { date := SCode.daysToDate 0, isDiagnostic := false,
            schemaVersion := 2, chartVersion := 0,
            cardio := none, strength := none, core := none, bodyComp := none } := by
  constructor
  · intro s bytes hdec hver hv4
    have hev := SCode.decodeSCode_eval s bytes hdec hver
    have hlen := ((verifyCrc8_true_iff bytes).mp hver).1
    obtain ⟨x, y, tail, rfl⟩ : ∃ x y tail, bytes = x :: y :: tail := by
      match bytes, hlen with
      | x :: y :: tail, _ => exact ⟨x, y, tail, rfl⟩
    have hx : x < 256 := decodeBase64url_bytes_lt hdec x (by simp)
    have hx4 : x >>> 4 ≤ 2 := by simpa using hv4
    rw [hev, List.dropLast_cons₂]
    unfold SCode.unpackAssessment
    have hn := ofBytes_first_nibble x (y :: tail).dropLast hx
    simp only [hn]
    rw [if_neg (show ¬ (x >>> 4 > SCode.SCHEMA_VERSION) from by
      simp only [SCode.SCHEMA_VERSION]
      omega)]
    exact ⟨_, rfl⟩
  · decide

set_option maxRecDepth 10000 in
/-- Witness for C10: the truncated payload `[0x20, crc]` satisfies the
    hypotheses — base64url decode succeeds, CRC verifies, version nibble
    2 — and decoding returns a record. -/
theorem C10_witness :
    decodeBase64url (encodeBase64url [32, crc8 [32]]) = some [32, crc8 [32]] ∧
    verifyCrc8 [32, crc8 [32]] = true ∧
    ([32, crc8 [32]] : List ℕ).getD 0 0 >>> 4 ≤ 2 ∧
    ∃ r, SCode.decodeSCode (SCode.PREFIX_TAG ++ encodeBase64url [32, crc8 [32]]) =
      .ok r :=
  ⟨by decide, by decide, by decide,
    C10_no_length_check.1 (encodeBase64url [32, crc8 [32]]) [32, crc8 [32]]
      (by decide) (by decide) (by decide)⟩

/-- Modelled from the spec (§3, §4.6), not from the code: the payload
    layout the spec claims — dateDays 15 bits from a 2020-01-01 epoch
    (ms 1577836800000), cardio/core value fields 11 bits, strength 7. -/
def sBitsClaimed (isDiagnosticPeriod : ℤ → Bool) (date : ℤ)
    (a : SCode.AssessmentIn) : List ℕ :=
  packBits SCode.SCHEMA_VERSION 4 ++ packBits SCode.CHART_VERSION 4 ++
    packBits ((Int.fdiv (date - 1577836800000) (1000 * 60 * 60 * 24)).toNat) 15 ++
    packBits (if isDiagnosticPeriod date then 1 else 0) 1 ++
    packBits (if a.cardio.isSome then 1 else 0) 1 ++
    packBits (if a.strength.isSome then 1 else 0) 1 ++
    packBits (if a.core.isSome then 1 else 0) 1 ++
    packBits (if a.bodyComp.isSome then 1 else 0) 1 ++
    (match a.cardio with
     | none => []
     | some cc =>
       packBits ((CARDIO_EXERCISES cc.exercise).getD 0) 3 ++
         packBits (if cc.exempt then 1 else 0) 1 ++
         (if cc.exempt then [] else packBits (jsRound cc.value).toNat 11)) ++
    (match a.strength with
     | none => []
     | some cc =>
       packBits ((STRENGTH_EXERCISES cc.exercise).getD 0) 2 ++
         packBits (if cc.exempt then 1 else 0) 1 ++
         (if cc.exempt then [] else packBits (jsRound cc.value).toNat 7)) ++
    (match a.core with
     | none => []
     | some cc =>
       packBits ((CORE_EXERCISES cc.exercise).getD 0) 2 ++
         packBits (if cc.exempt then 1 else 0) 1 ++
         (if cc.exempt then [] else packBits (jsRound cc.value).toNat 11)) ++
    (match a.bodyComp with
     | none => []
     | some cc =>
       packBits (if cc.exempt then 1 else 0) 1 ++
         (if cc.exempt then []
          else packBits (jsRound (cc.heightInches * 10)).toNat 11 ++
            packBits (jsRound (cc.waistInches * 10)).toNat 10))

set_option maxRecDepth 10000 in
/-- Counterexample to C3: for the date 2020-01-01 itself (the spec's
    claimed epoch), the bit stream `encodeSCode` actually assembles (16-bit
    day count from a 1950-01-01 epoch, value 25567) differs from the one
    the spec's layout describes (15-bit day count 0 from a 2020 epoch). -/
theorem C3_counterexample :
    SCode.sBits (fun _ => false) 1577836800000 { date := some 1577836800000 } ≠
      sBitsClaimed (fun _ => false) 1577836800000 { date := some 1577836800000 } := by
  decide

/-- **C3** (amended): `encodeSCode` packs, in order: schemaVersion (4
    bits), chartVersion (4), dateDays as the floor day count from the
    1950-01-01 epoch (16 bits), the diagnostic flag (1), four presence
    bits, then for each present component its exercise code (3 bits
    cardio, 2 strength, 2 core), its exempt bit, and — when not exempt —
    a value field of 12 bits for cardio and core and 7 bits for strength;
    bodyComp packs an exempt bit then 11-bit height and 10-bit waist in
    tenths of an inch. -/
theorem C3_layout (f : ℤ → Bool) (a : SCode.AssessmentIn) (date : ℤ)
    (hd : a.date = some date) :
    SCode.encodeSCode f a = .ok (SCode.PREFIX_TAG ++ encodeBase64url
      ((BitPacker.mk (SCode.sBits f date a)).getBytes ++
        [crc8 (BitPacker.mk (SCode.sBits f date a)).getBytes])) ∧
    SCode.sBits f date a =
      packBits 2 4 ++ packBits 0 4 ++
      packBits ((Int.fdiv (date - (-631152000000)) (1000 * 60 * 60 * 24)).toNat) 16 ++
      packBits (if f date then 1 else 0) 1 ++
      packBits (if a.cardio.isSome then 1 else 0) 1 ++
      packBits (if a.strength.isSome then 1 else 0) 1 ++
      packBits (if a.core.isSome then 1 else 0) 1 ++
      packBits (if a.bodyComp.isSome then 1 else 0) 1 ++
      (match a.cardio with
       | none => []
       | some cc =>
         packBits ((CARDIO_EXERCISES cc.exercise).getD 0) 3 ++
           packBits (if cc.exempt then 1 else 0) 1 ++
           (if cc.exempt then [] else packBits (jsRound cc.value).toNat 12)) ++
      (match a.strength with
       | none => []
       | some cc =>
         packBits ((STRENGTH_EXERCISES cc.exercise).getD 0) 2 ++
           packBits (if cc.exempt then 1 else 0) 1 ++
           (if cc.exempt then [] else packBits (jsRound cc.value).toNat 7)) ++
      (match a.core with
       | none => []
       | some cc =>
         packBits ((CORE_EXERCISES cc.exercise).getD 0) 2 ++
           packBits (if cc.exempt then 1 else 0) 1 ++
           (if cc.exempt then [] else packBits (jsRound cc.value).toNat 12)) ++
      (match a.bodyComp with
       | none => []
       | some cc =>
         packBits (if cc.exempt then 1 else 0) 1 ++
           (if cc.exempt then []
            else packBits (jsRound (cc.heightInches * 10)).toNat 11 ++
              packBits (jsRound (cc.waistInches * 10)).toNat 10)) := by
  refine ⟨SCode.encodeSCode_eq f a date hd, ?_⟩
  cases hc : a.cardio <;> cases hs : a.strength <;> cases hk : a.core <;>
    cases hb : a.bodyComp <;>
    simp only [SCode.sBits, SCode.cardioBits, SCode.strengthBits, SCode.coreBits,
      SCode.bodyCompBits, SCode.dateToDays, SCode.EPOCH_MS, SCode.SCHEMA_VERSION,
      SCode.CHART_VERSION, Option.isSome_some, Option.isSome_none, hc, hs, hk, hb]

/-- Witness for C3: the header-only record dated at the Unix epoch — day
    7305 of the 1950 epoch — instantiating the amended layout theorem. -/
theorem C3_layout_witness :
    ({ date := some 0 } : SCode.AssessmentIn).date = some (0 : ℤ) ∧
    SCode.encodeSCode (fun _ => false) { date := some 0 } =
      .ok (SCode.PREFIX_TAG ++ encodeBase64url
        ((BitPacker.mk (SCode.sBits (fun _ => false) 0 { date := some 0 })).getBytes ++
          [crc8 (BitPacker.mk (SCode.sBits (fun _ => false) 0 { date := some 0 })).getBytes])) ∧
    SCode.sBits (fun _ => false) 0 { date := some 0 } =
      packBits 2 4 ++ packBits 0 4 ++ packBits 7305 16 ++ packBits 0 1 ++
      packBits 0 1 ++ packBits 0 1 ++ packBits 0 1 ++ packBits 0 1 := by
  have h := C3_layout (fun _ => false) { date := some 0 } 0 rfl
  refine ⟨rfl, h.1, ?_⟩
  rw [h.2]
  decide

/-- **C2** (amended): `BitPacker.pack` appends the low `width` bits of the
    value — an out-of-range value is stored modulo 2^width (wrapped), not
    clamped — and `BitUnpacker.unpack` reads back exactly `v % 2^width`. -/
theorem C2_pack_wraps (v w : ℕ) (rest : List ℕ) :
    (BitPacker.mk []).pack v w = ⟨packBits v w⟩ ∧
    ((BitUnpacker.mk (packBits v w ++ rest) 0).unpack w).1 = v % 2 ^ w := by
  constructor
  · simp [BitPacker.pack]
  · have h := readBitsFrom_spec w (packBits v w ++ rest) 0 0 v rest
      (by rw [List.drop_zero])
    simpa [BitUnpacker.unpack] using h

end PFA
